import Mathlib

/-!
Verification of the clip-extraction core of the `clipper` repository
(`src/lib/clipExtractor.ts`), shallowly embedded in Lean 4.

Strings are modelled as `List Char`, JavaScript numbers as `ℚ`, the
stateful `ClipExtractor` class as explicit state passing, and the
external `ffmpeg` subprocess as the argument list the code would pass
to it.  Fallible operations return `Option`.
-/

namespace Clipper

/-- JavaScript strings, modelled as lists of characters. -/
abbrev Str := List Char

/-! ## Generic string helpers -/

/-- ASCII lowercasing of one character; models `String.prototype.toLowerCase`
for the ASCII range used by the repository's slugs and language tags. -/
def lowerChar (c : Char) : Char :=
  if 65 ≤ c.toNat ∧ c.toNat ≤ 90 then Char.ofNat (c.toNat + 32) else c

/-- Whitespace stripped by `String.prototype.trim` (the code points relevant
here: space, tab, LF, VT, FF, CR, NBSP, BOM). -/
def isTrimWS (c : Char) : Bool :=
  c == ' ' || c == '\t' || c == '\n' || c == '\r' ||
  c == Char.ofNat 11 || c == Char.ofNat 12 || c == Char.ofNat 160 ||
  c == Char.ofNat 65279

/-- `String.prototype.trim`. -/
def trimStr (s : Str) : Str :=
  ((s.dropWhile isTrimWS).reverse.dropWhile isTrimWS).reverse

/-- `chunk.split(/\r?\n/)`. -/
def splitLines : Str → List Str
  | [] => [[]]
  | '\r' :: '\n' :: r => [] :: splitLines r
  | '\n' :: r => [] :: splitLines r
  | c :: r =>
    match splitLines r with
    | [] => [[c]]
    | h :: t => (c :: h) :: t

/-- `contents.split(/\r?\n\r?\n/)` (blank-line block separation in `parseSrt`). -/
def splitChunks : Str → List Str
  | [] => [[]]
  | '\r' :: '\n' :: '\r' :: '\n' :: r => [] :: splitChunks r
  | '\r' :: '\n' :: '\n' :: r => [] :: splitChunks r
  | '\n' :: '\r' :: '\n' :: r => [] :: splitChunks r
  | '\n' :: '\n' :: r => [] :: splitChunks r
  | c :: r =>
    match splitChunks r with
    | [] => [[c]]
    | h :: t => (c :: h) :: t

/-- `timing.split(' --> ')` from `parseSrt`. -/
def splitArrow : Str → List Str
  | [] => [[]]
  | ' ' :: '-' :: '-' :: '>' :: ' ' :: r => [] :: splitArrow r
  | c :: r =>
    match splitArrow r with
    | [] => [[c]]
    | h :: t => (c :: h) :: t

/-- `lines.join(' ')`. -/
def joinSpace (ls : List Str) : Str := List.intercalate [' '] ls

/-- The decimal digit character for `n < 10`. -/
def digitChar (n : ℕ) : Char := Char.ofNat (48 + n)

/-- Fold a digit string to its numeric value (`Number` on digit strings). -/
def valFrom (a : ℕ) (s : Str) : ℕ :=
  s.foldl (fun acc c => acc * 10 + (c.toNat - 48)) a

/-- Numeric value of a digit string. -/
def digitsVal (s : Str) : ℕ := valFrom 0 s

/-- Decimal digits of a natural number, accumulator form; `fuel ≥ n`
suffices for the recursion on `n / 10` to finish. -/
def natToDigitsAux : ℕ → ℕ → Str → Str
  | 0, _, acc => acc
  | f + 1, n, acc =>
    if n = 0 then acc
    else natToDigitsAux f (n / 10) (digitChar (n % 10) :: acc)

/-- Decimal rendering of a natural number, as JavaScript template
interpolation produces for a nonnegative integer. -/
def natToDigits (n : ℕ) : Str := if n = 0 then ['0'] else natToDigitsAux (n + 1) n []

/-- The three zero-padded decimal digits of `f < 1000`. -/
def threeDigits (f : ℕ) : Str :=
  [digitChar (f / 100), digitChar (f / 10 % 10), digitChar (f % 10)]

/-- Drop trailing `'0'` characters (fraction rendering of JS numbers). -/
def dropTrailingZeros (s : Str) : Str :=
  (s.reverse.dropWhile (fun c => c == '0')).reverse

/-- `lines.join('\n') + '\n'` from `serializeMetadata`. -/
def joinLines : List Str → Str
  | [] => ['\n']
  | [l] => l ++ ['\n']
  | l :: r => l ++ '\n' :: joinLines r

/-! ## SRT parsing (`parseSrt`, `parseTimestamp`) -/

/-- One timed caption entry (`SubtitleBlock` in `clipExtractor.ts`).
Times are seconds. -/
structure SubtitleBlock where
  start : ℚ
  endTime : ℚ
  text : Str
  path : Str
  deriving DecidableEq, Repr

/-- Attempt to match the regex `(\d+):(\d+):(\d+),(\d+)` at the head of `s`,
returning the four captured numbers.  Greedy `\d+` followed by a literal
non-digit is exactly maximal munch. -/
def matchTSAt (s : Str) : Option (ℕ × ℕ × ℕ × ℕ) :=
  let d1 := s.takeWhile Char.isDigit
  let r1 := s.dropWhile Char.isDigit
  if d1 = [] then none else
  match r1 with
  | ':' :: s2 =>
    let d2 := s2.takeWhile Char.isDigit
    let r2 := s2.dropWhile Char.isDigit
    if d2 = [] then none else
    match r2 with
    | ':' :: s3 =>
      let d3 := s3.takeWhile Char.isDigit
      let r3 := s3.dropWhile Char.isDigit
      if d3 = [] then none else
      match r3 with
      | ',' :: s4 =>
        let d4 := s4.takeWhile Char.isDigit
        if d4 = [] then none else
        some (digitsVal d1, digitsVal d2, digitsVal d3, digitsVal d4)
      | _ => none
    | _ => none
  | _ => none

/-- `input.match(/(\d+):(\d+):(\d+),(\d+)/)`: leftmost match anywhere in
the string. -/
def findTS : Str → Option (ℕ × ℕ × ℕ × ℕ)
  | [] => none
  | c :: rest =>
    match matchTSAt (c :: rest) with
    | some t => some t
    | none => findTS rest

/-- `hours * 3600 + minutes * 60 + seconds + millis / 1000` from
`parseTimestamp`. -/
def tsVal (t : ℕ × ℕ × ℕ × ℕ) : ℚ :=
  (t.1 : ℚ) * 3600 + (t.2.1 : ℚ) * 60 + (t.2.2.1 : ℚ) + (t.2.2.2 : ℚ) / 1000

/-- `parseTimestamp`, with the `throw` on a failed regex match modelled as
`none` (the caller catches it and drops the block). -/
def parseTimestampQ (s : Str) : Option ℚ := (findTS s).map tsVal

/-- The lines of a chunk: `chunk.trim().split(/\r?\n/)`. -/
def chunkLines (chunk : Str) : List Str := splitLines (trimStr chunk)

/-- `startRaw` of a chunk: first piece of `lines[1].split(' --> ')`
(empty when absent, matching the falsy check in the source). -/
def startRawOf (chunk : Str) : Str :=
  (((splitArrow (((chunkLines chunk).get? 1).getD [])).get? 0)).getD []

/-- `endRaw` of a chunk: second piece of `lines[1].split(' --> ')`. -/
def endRawOf (chunk : Str) : Str :=
  (((splitArrow (((chunkLines chunk).get? 1).getD [])).get? 1)).getD []

/-- The joined text of a chunk: `lines.slice(2).join(' ').trim()`. -/
def textOf (chunk : Str) : Str := trimStr (joinSpace ((chunkLines chunk).drop 2))

/-- The body of the `chunks.forEach` in `parseSrt`: parse one blank-line
separated chunk, `none` meaning the chunk is silently skipped. -/
def parseChunk (fp : Str) (chunk : Str) : Option SubtitleBlock :=
  let lines := chunkLines chunk
  if lines.length < 2 then none else
  if startRawOf chunk = [] ∨ endRawOf chunk = [] then none else
  if textOf chunk = [] then none else
  match parseTimestampQ (startRawOf chunk), parseTimestampQ (endRawOf chunk) with
  | some s, some e => some { start := s, endTime := e, text := textOf chunk, path := fp }
  | _, _ => none

/-- `parseSrt`: split the raw contents on blank lines and keep the chunks
that parse; a total function — malformed chunks are dropped, never an
error. -/
def parseSrt (fp : Str) (contents : Str) : List SubtitleBlock :=
  (splitChunks contents).filterMap (parseChunk fp)

/-! ## Match locator (`hitsForBlock`) -/

/-- A located query occurrence, in seconds (`ClipMatch` in the source). -/
structure ClipMatch where
  start : ℚ
  endTime : ℚ
  deriving DecidableEq, Repr

/-- An abstract JavaScript regular expression:  `exec t p` models
`regex.exec(t)` with `regex.lastIndex = p`, returning the match index and
the length of `match[0]`.  A real engine satisfies `ExecValid`. -/
structure RegexEngine where
  exec : Str → ℕ → Option (ℕ × ℕ)

/-- What `RegExp.prototype.exec` guarantees: a match starts at or after the
scan cursor and lies inside the string. -/
def ExecValid (e : RegexEngine) : Prop :=
  ∀ t p i l, e.exec t p = some (i, l) → p ≤ i ∧ i + l ≤ t.length

/-- An engine whose matches always have nonzero length. -/
def PosLen (e : RegexEngine) : Prop :=
  ∀ t p i l, e.exec t p = some (i, l) → 0 < l

/-- The `while ((match = regex.exec(...)))` loop of `hitsForBlock`,
translated step by step.  `fuel` bounds the number of iterations of the
shallow embedding: `none` means the loop has not finished within `fuel`
iterations (the JavaScript loop has no such bound and can run forever).
Note the faithful translation of the dead guard: `matchLength` is
`match[0].length || 1`, so the `matchLength === 0` cursor bump can never
fire, and after a zero-length match the next scan starts at `i + l = i`. -/
def hitsScan (e : RegexEngine) (text : Str) (s dur : ℚ) :
    ℕ → ℕ → Option (List ClipMatch)
  | 0, _ => none
  | Nat.succ fuel, lastIndex =>
    match e.exec text lastIndex with
    | none => some []
    | some (i, l) =>
      let matchLength : ℕ := if l = 0 then 1 else l
      let startRatio : ℚ := (i : ℚ) / (text.length : ℚ)
      let endRatio : ℚ := ((i + matchLength : ℕ) : ℚ) / (text.length : ℚ)
      let hitStart : ℚ := s + dur * startRatio
      let hitEnd : ℚ := s + dur * endRatio
      let nextIndex : ℕ := if matchLength = 0 then i + l + 1 else i + l
      (hitsScan e text s dur fuel nextIndex).map
        (fun rest => { start := hitStart, endTime := hitEnd } :: rest)

/-- `hitsForBlock`: all matches of the query inside one block, with offsets
mapped to times by linear ratio.  Blocks with non-positive duration or
empty text produce no matches. -/
def hitsForBlock (e : RegexEngine) (block : SubtitleBlock) (fuel : ℕ) :
    Option (List ClipMatch) :=
  let dur := block.endTime - block.start
  let textLength := block.text.length
  if dur ≤ 0 ∨ textLength = 0 then some []
  else hitsScan e block.text block.start dur fuel 0

/-- The engine of the regex `new RegExp('', 'g')` (an empty pattern): an
empty match at the scan cursor whenever the cursor is inside the string. -/
def emptyRegexEngine : RegexEngine :=
  { exec := fun t p => if p ≤ t.length then some (p, 0) else none }

/-- An engine whose only match is the whole text, found when scanning from
position 0 (e.g. the query regex `^ab$` on the text `ab`). -/
def fullMatchEngine : RegexEngine :=
  { exec := fun t p => if p = 0 ∧ t.length ≠ 0 then some (0, t.length) else none }

/-- An engine matching one character at every position (e.g. the query
regex `.`). -/
def singleCharEngine : RegexEngine :=
  { exec := fun t p => if p < t.length then some (p, 1) else none }

/-! ## Modes, containers, naming -/

/-- `ClipMode` from the source. -/
inductive ClipMode where
  | fastCopy
  | accurateTranscode
  | cleanTranscode
  deriving DecidableEq, Repr

/-- `ContainerFormat` from the source. -/
inductive ContainerFormat where
  | mkv
  | mp4
  deriving DecidableEq, Repr

/-- `HardwareAccel` from the source. -/
inductive HardwareAccel where
  | videotoolbox
  deriving DecidableEq, Repr

/-- The string value of a `ClipMode`. -/
def modeStr : ClipMode → Str
  | ClipMode.fastCopy => "fast-copy".toList
  | ClipMode.accurateTranscode => "accurate-transcode".toList
  | ClipMode.cleanTranscode => "clean-transcode".toList

/-- The string value of a `ContainerFormat` (also the file extension). -/
def containerStr : ContainerFormat → Str
  | ContainerFormat.mkv => "mkv".toList
  | ContainerFormat.mp4 => "mp4".toList

/-- The string value of a `HardwareAccel`. -/
def hwStr : HardwareAccel → Str
  | HardwareAccel.videotoolbox => "videotoolbox".toList

/-- Characters kept by `slugify`'s regex class `[a-z0-9]`. -/
def isSlugKeep (c : Char) : Bool :=
  (97 ≤ c.toNat && c.toNat ≤ 122) || (48 ≤ c.toNat && c.toNat ≤ 57)

/-- `.replace(/[^a-z0-9]+/g, '_')`, scanning with a flag recording whether
the previous character was part of an excluded run: each maximal run of
excluded characters becomes a single underscore. -/
def replaceNonAlnumGo : Bool → Str → Str
  | _, [] => []
  | inRun, c :: r =>
    if isSlugKeep c then c :: replaceNonAlnumGo false r
    else if inRun then replaceNonAlnumGo true r
    else '_' :: replaceNonAlnumGo true r

/-- `.replace(/[^a-z0-9]+/g, '_')`. -/
def replaceNonAlnum (s : Str) : Str := replaceNonAlnumGo false s

/-- `.replace(/_{2,}/g, '_')`, scanning with a flag recording whether the
previous character was an underscore (a run of two or more underscores
becomes one; a single underscore stays one). -/
def collapseUnderscoresGo : Bool → Str → Str
  | _, [] => []
  | inRun, '_' :: r =>
    if inRun then collapseUnderscoresGo true r
    else '_' :: collapseUnderscoresGo true r
  | _, c :: r => c :: collapseUnderscoresGo false r

/-- `.replace(/_{2,}/g, '_')`. -/
def collapseUnderscores (s : Str) : Str := collapseUnderscoresGo false s

/-- `.replace(/^_|_$/g, '')`, leading half. -/
def stripLeadUnderscore : Str → Str
  | '_' :: r => r
  | s => s

/-- `.replace(/^_|_$/g, '')`. -/
def stripEdgeUnderscores (s : Str) : Str :=
  (stripLeadUnderscore (stripLeadUnderscore s).reverse).reverse

/-- `slugify` from the source. -/
def slugify (value : Str) : Str :=
  stripEdgeUnderscores (collapseUnderscores (replaceNonAlnum (value.map lowerChar)))

/-- `n.toFixed(3)` digits for a nonnegative scaled integer `n` (the value
times 1000): integer part, `'.'`, and exactly three fraction digits. -/
def fixed3Digits (n : ℕ) : Str :=
  natToDigits (n / 1000) ++ '.' :: threeDigits (n % 1000)

/-- `seconds.toFixed(3)`: ECMAScript `toFixed` picks the integer `n`
minimising `abs (n / 1000 - x)`, larger on ties, i.e. `⌊1000x + 1/2⌋`. -/
def toFixed3 (q : ℚ) : Str :=
  let n : ℤ := Int.floor (q * 1000 + 1 / 2)
  if n < 0 then '-' :: fixed3Digits n.natAbs else fixed3Digits n.toNat

/-- `.padStart(10, '0')`. -/
def padStart10 (s : Str) : Str :=
  List.replicate (10 - s.length) '0' ++ s

/-- `.replace('.', '_')` with a string pattern replaces only the first
occurrence. -/
def replaceFirstDot : Str → Str
  | [] => []
  | '.' :: r => '_' :: r
  | c :: r => c :: replaceFirstDot r

/-- `formatStartTag` from the source. -/
def formatStartTag (seconds : ℚ) : Str :=
  replaceFirstDot (padStart10 (toFixed3 seconds))

/-- `buildOutputName`: `slug_index_startTag.container`. -/
def buildOutputName (relativeMovieDir : Str) (index : ℕ) (startTime : ℚ)
    (container : ContainerFormat) : Str :=
  slugify relativeMovieDir ++
    '_' :: (natToDigits index ++
      '_' :: (formatStartTag startTime ++ '.' :: containerStr container))

/-- `buildCoverName`: `slug_index_startTag.jpg`. -/
def buildCoverName (relativeMovieDir : Str) (index : ℕ) (matchTime : ℚ) : Str :=
  slugify relativeMovieDir ++
    '_' :: (natToDigits index ++
      '_' :: (formatStartTag matchTime ++ '.' :: "jpg".toList))

/-! ## ffmpeg invocation (`runFfmpeg`) -/

/-- `pad2`. -/
def pad2 (n : ℕ) : Str :=
  let d := natToDigits n
  if d.length < 2 then '0' :: d else d

/-- `formatFfmpegTime`: `HH:MM:SS.mmm` with `totalMs = max(round(s*1000), 0)`
(`Math.round x = ⌊x + 1/2⌋`). -/
def formatFfmpegTime (seconds : ℚ) : Str :=
  let totalMs : ℕ := (max (Int.floor (seconds * 1000 + 1 / 2)) 0).toNat
  let ms := totalMs % 1000
  let totalSeconds := totalMs / 1000
  let s := totalSeconds % 60
  let totalMinutes := totalSeconds / 60
  let m := totalMinutes % 60
  let h := totalMinutes / 60
  pad2 h ++ ':' :: pad2 m ++ ':' :: pad2 s ++ '.' :: threeDigits ms

/-- `buildVideoCodecArgs`. -/
def buildVideoCodecArgs : Option HardwareAccel → List Str
  | some HardwareAccel.videotoolbox => ["-c:v".toList, "h264_videotoolbox".toList]
  | none =>
    ["-c:v".toList, "libx264".toList, "-preset".toList, "veryfast".toList,
     "-crf".toList, "18".toList]

/-- The shared `baseArgs` of `runFfmpeg`. -/
def ffmpegBaseArgs (verbose ffmpegStats : Bool) : List Str :=
  ["-hide_banner".toList, "-nostdin".toList, "-loglevel".toList,
   (if verbose then "info".toList else "error".toList), "-y".toList] ++
  (if ffmpegStats then ["-stats".toList] else [])

/-- `containerArgs`: fast-start metadata for the streaming-friendly mp4. -/
def ffmpegContainerArgs : ContainerFormat → List Str
  | ContainerFormat.mp4 => ["-movflags".toList, "+faststart".toList]
  | ContainerFormat.mkv => []

/-- `hwDecodeArgs`. -/
def ffmpegHwDecodeArgs : Option HardwareAccel → List Str
  | some hw => ["-hwaccel".toList, hwStr hw]
  | none => []

/-- The full argument list `runFfmpeg` passes to the media tool, by mode. -/
def runFfmpegArgs (videoPath : Str) (startTime duration : ℚ) (outputPath : Str)
    (mode : ClipMode) (container : ContainerFormat) (hwAccel : Option HardwareAccel)
    (ffmpegStats verbose : Bool) : List Str :=
  let baseArgs := ffmpegBaseArgs verbose ffmpegStats
  let durationArg := ["-t".toList, formatFfmpegTime duration]
  let containerArgs := ffmpegContainerArgs container
  let hwDecodeArgs := ffmpegHwDecodeArgs hwAccel
  match mode with
  | ClipMode.fastCopy =>
    baseArgs ++ hwDecodeArgs ++
      ["-ss".toList, formatFfmpegTime startTime, "-i".toList, videoPath] ++
      durationArg ++ ["-c".toList, "copy".toList] ++ containerArgs ++ [outputPath]
  | ClipMode.accurateTranscode =>
    baseArgs ++ hwDecodeArgs ++
      ["-i".toList, videoPath, "-ss".toList, formatFfmpegTime startTime] ++
      durationArg ++ buildVideoCodecArgs hwAccel ++
      ["-c:a".toList, "aac".toList, "-b:a".toList, "192k".toList] ++
      containerArgs ++ [outputPath]
  | ClipMode.cleanTranscode =>
    baseArgs ++
      ["-ss".toList, formatFfmpegTime startTime, "-i".toList, videoPath] ++
      durationArg ++
      ["-c:v".toList, "libx264".toList, "-preset".toList, "veryfast".toList,
       "-c:a".toList, "aac".toList, "-b:a".toList, "192k".toList] ++
      containerArgs ++ [outputPath]

/-! ## Window calculation and per-hit processing (`ClipExtractor.processHit`) -/

/-- A match plus its context (`ClipCandidate` in the source). -/
structure ClipCandidate where
  start : ℚ
  endTime : ℚ
  contextSnippets : List Str
  deriving DecidableEq, Repr

/-- `startTime = Math.max(hit.start - bufferSeconds, 0)` (line 191). -/
def windowStart (bufferSeconds : ℚ) (hit : ClipCandidate) : ℚ :=
  max (hit.start - bufferSeconds) 0

/-- `endTime = hit.end + bufferSeconds` (line 192). -/
def windowEnd (bufferSeconds : ℚ) (hit : ClipCandidate) : ℚ :=
  hit.endTime + bufferSeconds

/-- One recorded clip (`ClipMetadataEntry` in the source). -/
structure ClipMetadataEntry where
  file : Str
  video : Str
  subtitle : Str
  start : ℚ
  endVal : ℚ
  processing_ms : ℕ
  cover_image : Option Str
  summary : Option Str
  summary_context : Option (List Str)
  deriving DecidableEq, Repr

/-- `Math.round(value * 1000) / 1000` (`roundNumber`). -/
def roundNumber (value : ℚ) : ℚ :=
  ((Int.floor (value * 1000 + 1 / 2) : ℚ)) / 1000

/-- The run-constant configuration of a `ClipExtractor` instance. -/
structure ExtractorConfig where
  bufferSeconds : ℚ
  dryRun : Bool
  mode : ClipMode
  container : ContainerFormat
  hwAccel : Option HardwareAccel
  ffmpegStats : Bool
  ffmpegVerbose : Bool

/-- The mutable state a run threads through `processHit`: the per-movie
sequence counters (a `Map` with missing keys read as 0), the accumulated
manifest entries, and the argument lists of the media-tool invocations
made so far. -/
structure ExtractorState where
  movieClipCounts : Str → ℕ
  metadataEntries : List ClipMetadataEntry
  ffmpegCalls : List (List Str)

/-- The state at the start of a run. -/
def initialState : ExtractorState :=
  { movieClipCounts := fun _ => 0, metadataEntries := [], ffmpegCalls := [] }

/-- `ClipExtractor.processHit`, as a state transition.  `videoRel` and
`subtitleRel` are the already-relativized media paths (`path.relative` is
filesystem glue abstracted away); `msElapsed` is the measured ffmpeg wall
time; `coverOk` and `summaryResult` are the outcomes of the best-effort
cover capture and summarization. -/
def processHit (cfg : ExtractorConfig) (st : ExtractorState) (hit : ClipCandidate)
    (videoRel subtitleRel relativeMovieDir : Str) (msElapsed : ℚ)
    (coverOk : Bool) (summaryResult : Option Str) : ExtractorState :=
  let startTime := windowStart cfg.bufferSeconds hit
  let endTime := windowEnd cfg.bufferSeconds hit
  let duration := endTime - startTime
  if duration ≤ 0 then st
  else
    let nextIndex := st.movieClipCounts relativeMovieDir + 1
    let counts' : Str → ℕ :=
      fun k => if k = relativeMovieDir then nextIndex else st.movieClipCounts k
    let outputName := buildOutputName relativeMovieDir nextIndex startTime cfg.container
    let coverName := buildCoverName relativeMovieDir nextIndex hit.start
    let calls' :=
      if cfg.dryRun then st.ffmpegCalls
      else st.ffmpegCalls ++
        [runFfmpegArgs videoRel startTime duration ("vids/".toList ++ outputName)
          cfg.mode cfg.container cfg.hwAccel cfg.ffmpegStats cfg.ffmpegVerbose]
    let processingMs : ℚ := if cfg.dryRun then 0 else msElapsed
    let entry : ClipMetadataEntry :=
      { file := "vids/".toList ++ outputName
        video := videoRel
        subtitle := subtitleRel
        start := roundNumber startTime
        endVal := roundNumber endTime
        processing_ms := (Int.floor (processingMs + 1 / 2)).toNat
        cover_image :=
          if cfg.dryRun then none
          else if coverOk then some ("covers/".toList ++ coverName) else none
        summary := if cfg.dryRun then none else summaryResult
        summary_context := if cfg.dryRun then none else some hit.contextSnippets }
    { movieClipCounts := counts'
      metadataEntries := st.metadataEntries ++ [entry]
      ffmpegCalls := calls' }

/-! ## Run manifest (`buildMetadata`, `serializeMetadata`) -/

/-- `ClipRunMetadata` from the source. -/
structure ClipRunMetadata where
  schema : Str
  query : Str
  buffer_ms : ℕ
  generated_at : Str
  ffmpeg_path : Str
  mode : ClipMode
  container : ContainerFormat
  hw_accel : Option HardwareAccel
  total_clips : ℕ
  run_directory : Str
  clips : List ClipMetadataEntry
  deriving DecidableEq, Repr

/-- `ClipExtractor.buildMetadata`: the manifest assembled at the end of a
run; `total_clips` is the length of the accumulated entry list and
`clips` is that list. -/
def buildMetadata (query : Str) (buffer_ms : ℕ) (generated_at ffmpeg_path : Str)
    (cfg : ExtractorConfig) (run_directory : Str) (st : ExtractorState) :
    ClipRunMetadata :=
  { schema := "clip_run.v1".toList
    query := query
    buffer_ms := buffer_ms
    generated_at := generated_at
    ffmpeg_path := ffmpeg_path
    mode := cfg.mode
    container := cfg.container
    hw_accel := cfg.hwAccel
    total_clips := st.metadataEntries.length
    run_directory := run_directory
    clips := st.metadataEntries }

/-- The character class of `yamlString`'s plain form (letters, digits, underscore, dot, slash, dash). -/
def isPlainYamlChar (c : Char) : Bool :=
  (65 ≤ c.toNat && c.toNat ≤ 90) || (97 ≤ c.toNat && c.toNat ≤ 122) ||
  (48 ≤ c.toNat && c.toNat ≤ 57) ||
  c == '_' || c == '.' || c == '/' || c == '-'

/-- One character of `JSON.stringify`'s string escaping (the escapes the
repository's values can need; every control character relevant to the
line structure is escaped). -/
def jsonEscapeChar (c : Char) : Str :=
  if c = '"' then ['\\', '"']
  else if c = '\\' then ['\\', '\\']
  else if c = '\n' then ['\\', 'n']
  else if c = '\r' then ['\\', 'r']
  else if c = '\t' then ['\\', 't']
  else [c]

/-- `JSON.stringify` on a string. -/
def jsonStringify (s : Str) : Str :=
  '"' :: (s.map jsonEscapeChar).flatten ++ ['"']

/-- `yamlString`: plain if it is nonempty and all characters are plain, else JSON
quoted. -/
def yamlString (value : Str) : Str :=
  if value ≠ [] ∧ value.all isPlainYamlChar then value else jsonStringify value

/-- JavaScript number-to-string rendering for the scaled natural `n`
(the value times 1000): integer part and, when nonzero, the fraction
digits with trailing zeros dropped. -/
def qDigits (n : ℕ) : Str :=
  if n % 1000 = 0 then natToDigits (n / 1000)
  else natToDigits (n / 1000) ++ '.' :: dropTrailingZeros (threeDigits (n % 1000))

/-- The string interpolation `'' + value` of a manifest number.  The
values the recorder stores are exact multiples of 1/1000 (they come from
`roundNumber`), for which ECMAScript's shortest-round-trip rendering is
the plain decimal. -/
def qToStr (q : ℚ) : Str :=
  let n : ℤ := Int.floor (q * 1000)
  if n < 0 then '-' :: qDigits n.natAbs else qDigits n.toNat

/-- The lines `serializeMetadata` pushes for one clip. -/
def clipLines (c : ClipMetadataEntry) : List Str :=
  ["  - file: ".toList ++ yamlString c.file,
   "    video: ".toList ++ yamlString c.video,
   "    subtitle: ".toList ++ yamlString c.subtitle,
   "    start: ".toList ++ qToStr c.start,
   "    end: ".toList ++ qToStr c.endVal,
   "    processing_ms: ".toList ++ natToDigits c.processing_ms] ++
  (match c.cover_image with
   | some ci => if ci = [] then [] else ["    cover_image: ".toList ++ yamlString ci]
   | none => []) ++
  (match c.summary with
   | some su => if su = [] then [] else ["    summary: ".toList ++ yamlString su]
   | none => []) ++
  (match c.summary_context with
   | some ctx =>
     if ctx = [] then []
     else "    summary_context:".toList ::
       ctx.map (fun l => "      - ".toList ++ yamlString l)
   | none => [])

/-- All lines `serializeMetadata` pushes. -/
def metadataLines (m : ClipRunMetadata) : List Str :=
  ["schema: ".toList ++ m.schema,
   "query: ".toList ++ yamlString m.query,
   "buffer_ms: ".toList ++ natToDigits m.buffer_ms,
   "generated_at: ".toList ++ yamlString m.generated_at,
   "ffmpeg_path: ".toList ++ yamlString m.ffmpeg_path,
   "mode: ".toList ++ modeStr m.mode,
   "container: ".toList ++ containerStr m.container] ++
  (match m.hw_accel with
   | some h => ["hw_accel: ".toList ++ hwStr h]
   | none => []) ++
  ["run_directory: ".toList ++ yamlString m.run_directory,
   "total_clips: ".toList ++ natToDigits m.total_clips,
   "clips:".toList] ++
  (m.clips.map clipLines).flatten

/-- `serializeMetadata`: the pushed lines joined with newlines plus a
trailing newline. -/
def serializeMetadata (m : ClipRunMetadata) : Str :=
  joinLines (metadataLines m)

/-- Decimal digit characters. -/
def isDigitChar (c : Char) : Bool := 48 ≤ c.toNat && c.toNat ≤ 57

/-- Parse a digit string to a natural number. -/
def parseNatStr (s : Str) : Option ℕ :=
  if s ≠ [] ∧ s.all isDigitChar then some (digitsVal s) else none

/-- Parse a nonnegative decimal numeral, with an optional fraction part. -/
def parseQStr (s : Str) : Option ℚ :=
  let a := s.takeWhile (fun c => !(c == '.'))
  match s.dropWhile (fun c => !(c == '.')) with
  | [] =>
    match parseNatStr s with
    | some n => some ((n : ℚ))
    | none => none
  | '.' :: b =>
    match parseNatStr a, parseNatStr b with
    | some x, some y => some ((x : ℚ) + (y : ℚ) / (10 : ℚ) ^ b.length)
    | _, _ => none
  | _ => none

/-- The numbers the recorder stores: nonnegative exact multiples of
1/1000 (the image of `roundNumber` on nonnegative windows). -/
def NumOk (q : ℚ) : Prop := 0 ≤ q ∧ (q * 1000).den = 1


/-! ## Re-parsing `metadata.yaml` (`MetadataIndexService.loadRunsFromDisk`,
`scripts/clearClips.ts`): the readers call `parse` from the third-party
`yaml` package and then consume `run.total_clips` and each clip's
`start`, `end` and `processing_ms`.  The package's implementation is not
part of this repository, so its behaviour on the block documents at hand
is modelled below; the callers themselves are embedded from the source. -/

/-- A parsed YAML node, as the `yaml` package's `parse` returns it for
block documents: null, booleans, numbers, strings, sequences and
mappings. -/
inductive YamlVal where
  | null : YamlVal
  | bool : Bool → YamlVal
  | num : ℚ → YamlVal
  | str : Str → YamlVal
  | seq : List YamlVal → YamlVal
  | map : List (Str × YamlVal) → YamlVal

/-- The leading-space count of a line. -/
def indentOf (l : Str) : ℕ := (l.takeWhile (fun c => c == ' ')).length

/-- Split a mapping line's body at the first `':'` that ends a key: a
colon followed by a space separates key and value, a colon at the end of
the line leaves an empty value, and a colon followed by anything else is
part of the key (as in YAML plain scalars).  `none` when the line holds
no such separator. -/
def keyValSplit : Str → Option (Str × Str)
  | [] => none
  | c :: rest =>
    if c = ':' then
      match rest with
      | [] => some ([], [])
      | r :: rs =>
        if r = ' ' then some ([], rs)
        else (keyValSplit (r :: rs)).map (fun p => (':' :: p.1, p.2))
    else (keyValSplit rest).map (fun p => (c :: p.1, p.2))

/-- The JSON escapes `JSON.stringify` emits, decoded. -/
def escChar (e : Char) : Option Char :=
  if e = '"' then some '"'
  else if e = '\\' then some '\\'
  else if e = 'n' then some '\n'
  else if e = 'r' then some '\r'
  else if e = 't' then some '\t'
  else none

/-- Consume a double-quoted scalar body up to its closing quote, decoding
the JSON escapes `JSON.stringify` emits; returns the decoded text and
the rest of the line, or `none` on an unterminated or unknown escape. -/
def unq : Str → Option (Str × Str)
  | [] => none
  | c :: rest =>
    if c = '"' then some ([], rest)
    else if c = '\\' then
      match rest with
      | [] => none
      | e :: rest2 =>
        match escChar e with
        | some d => (unq rest2).map (fun p => (d :: p.1, p.2))
        | none => none
    else (unq rest).map (fun p => (c :: p.1, p.2))

/-- YAML core-schema number resolution for the decimal forms at hand: an
optional minus sign, digits, and an optional fraction part. -/
def parseNumScalar (s : Str) : Option ℚ :=
  if s.head? = some '-' then (parseQStr (s.drop 1)).map (fun q => -q)
  else parseQStr s

/-- Modelled from the spec: scalar resolution as the `yaml` package's
core schema performs it on this document class.  Double-quoted text
stays a string; plain `null`, `~`, `true`, `false` and decimal numbers
resolve to their values; any other plain text is a string. -/
def resolveScalar (s : Str) : Option YamlVal :=
  if s.head? = some '"' then
    match unq (s.drop 1) with
    | some (content, rem) =>
      if rem = [] then some (YamlVal.str content) else none
    | none => none
  else if s = "null".toList then some YamlVal.null
  else if s = "~".toList then some YamlVal.null
  else if s = "true".toList then some (YamlVal.bool true)
  else if s = "false".toList then some (YamlVal.bool false)
  else
    match parseNumScalar s with
    | some q => some (YamlVal.num q)
    | none => some (YamlVal.str s)

mutual

/-- Modelled from the spec: the block-mapping loop of the `yaml`
package's parser.  At indentation `i`, each line `key: value` adds a
resolved scalar entry; `key:` with nothing after it takes the following
deeper-indented block as its value (a sequence when it starts with a
dash, a mapping otherwise) and is `null` when no such block follows; a
line indented less than `i` ends the mapping and is left for the caller;
a deeper line without a preceding `key:` is a parse error.  Fuel bounds
the recursion. -/
def parseMapGo : ℕ → ℕ → List Str → List (Str × YamlVal) →
    Option (List (Str × YamlVal) × List Str)
  | 0, _, _, _ => none
  | _ + 1, _, [], acc => some (acc, [])
  | f + 1, i, l :: rest, acc =>
    if indentOf l < i then some (acc, l :: rest)
    else if i < indentOf l then none
    else
      match keyValSplit (l.drop i) with
      | none => none
      | some (k, v) =>
        if v = [] then
          match rest with
          | [] => some (acc ++ [(k, YamlVal.null)], [])
          | l2 :: rest2 =>
            if indentOf l2 ≤ i then
              parseMapGo f i (l2 :: rest2) (acc ++ [(k, YamlVal.null)])
            else if (l2.drop (indentOf l2)).head? = some '-' then
              match parseSeqGo f (indentOf l2) (l2 :: rest2) [] with
              | some (items, rest3) =>
                parseMapGo f i rest3 (acc ++ [(k, YamlVal.seq items)])
              | none => none
            else
              match parseMapGo f (indentOf l2) (l2 :: rest2) [] with
              | some (entries, rest3) =>
                parseMapGo f i rest3 (acc ++ [(k, YamlVal.map entries)])
              | none => none
        else
          match resolveScalar v with
          | some w => parseMapGo f i rest (acc ++ [(k, w)])
          | none => none

/-- Modelled from the spec: the block-sequence loop of the `yaml`
package's parser.  At indentation `i`, each line `- item` adds one item;
a bare dash is a null item; a line indented less than `i` ends the
sequence and is left for the caller. -/
def parseSeqGo : ℕ → ℕ → List Str → List YamlVal →
    Option (List YamlVal × List Str)
  | 0, _, _, _ => none
  | _ + 1, _, [], acc => some (acc, [])
  | f + 1, i, l :: rest, acc =>
    if indentOf l < i then some (acc, l :: rest)
    else if i < indentOf l then none
    else if (l.drop i).head? = some '-' then
      if l.drop (i + 1) = [] then parseSeqGo f i rest (acc ++ [YamlVal.null])
      else if (l.drop (i + 1)).head? = some ' ' then
        parseSeqItem f i (l.drop (i + 2)) rest acc
      else none
    else none

/-- Modelled from the spec: one block-sequence item of the `yaml`
package's parser.  A double-quoted item is a string; an item of the form
`key: value` (or `key:`) opens a compact mapping whose keys sit two
columns right of the dash; anything else is a resolved scalar. -/
def parseSeqItem : ℕ → ℕ → Str → List Str → List YamlVal →
    Option (List YamlVal × List Str)
  | 0, _, _, _, _ => none
  | f + 1, i, item, rest, acc =>
    if item.head? = some '"' then
      match unq (item.drop 1) with
      | some (content, rem) =>
        if rem = [] then parseSeqGo f i rest (acc ++ [YamlVal.str content])
        else none
      | none => none
    else
      match keyValSplit item with
      | some _ =>
        match parseMapGo f (i + 2)
            ((List.replicate (i + 2) ' ' ++ item) :: rest) [] with
        | some (entries, rest2) =>
          parseSeqGo f i rest2 (acc ++ [YamlVal.map entries])
        | none => none
      | none =>
        match resolveScalar item with
        | some w => parseSeqGo f i rest (acc ++ [w])
        | none => none

end

/-- Modelled from the spec: `parse` from the `yaml` package on a block
document: blank lines carry no content, the document is a block mapping
at indentation 0, and a parse error (or trailing unconsumed input)
yields no value — the readers' `try`/`catch` then skips the file. -/
def yamlParse (s : Str) : Option YamlVal :=
  let lines := (splitLines s).filter (fun l => l ≠ [])
  match parseMapGo (4 * lines.length + 4) 0 lines [] with
  | some (entries, []) => some (YamlVal.map entries)
  | _ => none

/-- Property lookup on a parsed block mapping (JS member access on the
object `parse` returns). -/
def lookupYaml (k : Str) : List (Str × YamlVal) → Option YamlVal
  | [] => none
  | (k0, v) :: rest => if k0 = k then some v else lookupYaml k rest

/-- The numeric fields the importer reads from one parsed clip entry:
`clip.start`, `clip.end` and `clip.processing_ms`
(`scripts/clearClips.ts`, import loop). -/
def clipNums : YamlVal → Option (ℚ × ℚ × ℚ)
  | YamlVal.map es =>
    match lookupYaml "start".toList es, lookupYaml "end".toList es,
        lookupYaml "processing_ms".toList es with
    | some (YamlVal.num s), some (YamlVal.num e), some (YamlVal.num p) =>
      some (s, e, p)
    | _, _, _ => none
  | _ => none

/-- The numeric fields of every clip of a parsed `clips` array, in
order. -/
def clipNumsList : List YamlVal → Option (List (ℚ × ℚ × ℚ))
  | [] => some []
  | v :: rest =>
    match clipNums v, clipNumsList rest with
    | some n, some ns => some (n :: ns)
    | _, _ => none

/-- The readers' view of one `metadata.yaml` text:
`MetadataIndexService.loadRunsFromDisk` and `clearClips.loadMetadata`
run `parse(raw) as ClipRunMetadata` and keep the result only when
`parsed?.clips` holds an array; the consumers then read
`run.total_clips` and, for each clip, `clip.start`, `clip.end` and
`clip.processing_ms`. -/
def readRunNums (raw : Str) : Option (ℚ × List (ℚ × ℚ × ℚ)) :=
  match yamlParse raw with
  | some (YamlVal.map es) =>
    match lookupYaml "clips".toList es with
    | some (YamlVal.seq items) =>
      match lookupYaml "total_clips".toList es, clipNumsList items with
      | some (YamlVal.num t), some ns => some (t, ns)
      | _, _ => none
    | _ => none
  | _ => none


/-- The `cover_image` line segment of `clipLines`. -/
def covLines (c : ClipMetadataEntry) : List Str :=
  match c.cover_image with
  | some ci => if ci = [] then []
    else ["    cover_image: ".toList ++ yamlString ci]
  | none => []

/-- The `summary` line segment of `clipLines`. -/
def sumLines (c : ClipMetadataEntry) : List Str :=
  match c.summary with
  | some su => if su = [] then []
    else ["    summary: ".toList ++ yamlString su]
  | none => []

/-- The `summary_context` line segment of `clipLines`. -/
def ctxLines (c : ClipMetadataEntry) : List Str :=
  match c.summary_context with
  | some ctxl => if ctxl = [] then []
    else "    summary_context:".toList ::
      ctxl.map (fun l => "      - ".toList ++ yamlString l)
  | none => []

/-! ## Subtitle stream selection (`findSubtitleStreamIndex`,
`extractSubtitleTrack`) -/

/-- One probed subtitle stream, as reported by the stream probe's JSON
(`index`, `codec_name`, `tags.language`). -/
structure ProbeStream where
  index : ℕ
  codec_name : Option Str
  language : Option Str
  deriving DecidableEq, Repr

/-- `stream.tags?.language?.toLowerCase().startsWith('en')`. -/
def isEnglishStream (s : ProbeStream) : Bool :=
  match s.language with
  | some l =>
    match l.map lowerChar with
    | 'e' :: 'n' :: _ => true
    | _ => false
  | none => false

/-- The selection logic of `findSubtitleStreamIndex`: the first
English-tagged stream, else the first `subrip` stream, else the first
stream of the list (`?? data.streams?.[0]`). -/
def findSubtitleStreamSelection (streams : List ProbeStream) :
    Option (ℕ × Option Str) :=
  match streams.find? isEnglishStream with
  | some s => some (s.index, s.codec_name)
  | none =>
    match streams.find? (fun s => s.codec_name == some "subrip".toList) with
    | some s => some (s.index, s.codec_name)
    | none =>
      match streams.head? with
      | some s => some (s.index, s.codec_name)
      | none => none

/-- The text-based codecs `extractSubtitleTrack` accepts. -/
def textBasedCodecs : List Str :=
  ["subrip".toList, "text".toList, "ass".toList, "ssa".toList,
   "webvtt".toList, "mov_text".toList]

/-- The track `extractSubtitleTrack` extracts from the probed streams:
the selected stream unless its codec is a (truthy) non-text codec, in
which case extraction is skipped with a warning and no track results. -/
def extractDecision (streams : List ProbeStream) : Option ℕ :=
  match findSubtitleStreamSelection streams with
  | none => none
  | some (i, codec) =>
    let skip : Bool :=
      match codec with
      | some c => !c.isEmpty && !(textBasedCodecs.contains c)
      | none => false
    if skip then none else some i

/-- The selection policy as the claim words it (for comparison with
`extractDecision`): first English-tagged stream, else the first stream
whose codec is one of the text-based codecs, else no track. -/
def claimedSelection (streams : List ProbeStream) : Option ℕ :=
  match streams.find? isEnglishStream with
  | some s => some s.index
  | none =>
    match streams.find?
      (fun s =>
        match s.codec_name with
        | some c => textBasedCodecs.contains c
        | none => false) with
    | some s => some s.index
    | none => none

/-! ## Helper lemmas -/

/-! ## C2, C3, C4 -/

theorem hitsScan_emptyRegex_stuck (text : Str) (s d : ℚ) :
    ∀ fuel p, p ≤ text.length →
      hitsScan emptyRegexEngine text s d fuel p = none := by
  intro fuel
  induction fuel with
  | zero => intro p _; rfl
  | succ f ih =>
    intro p hp
    show hitsScan emptyRegexEngine text s d (f + 1) p = none
    rw [hitsScan]
    have hex : emptyRegexEngine.exec text p = some (p, 0) := by
      simp [emptyRegexEngine, hp]
    rw [hex]
    simp [ih p hp]

/-- C2: FALSE of the code (code bug).  The spec demands that a zero-length
match advance the scan cursor by one code unit, and the source contains a
guard `if (matchLength === 0) regex.lastIndex += 1` intended to do so —
but `matchLength` is `match[0].length || 1`, which is never `0`, so the
guard is dead and a zero-length match leaves the cursor unchanged.  On the
block `[0, 1) "ab"` with the empty pattern the per-block scan never
terminates: no iteration bound (`fuel`) ever suffices. -/
theorem hitsForBlock_empty_pattern_diverges :
    ∀ fuel, hitsForBlock emptyRegexEngine
      { start := 0, endTime := 1, text := "ab".toList, path := [] } fuel = none := by
  intro fuel
  rw [hitsForBlock]
  simp only []
  rw [if_neg (by norm_num)]
  exact hitsScan_emptyRegex_stuck _ _ _ fuel 0 (by simp)

/-- C3: when the buffered window `[max(hitStart - buffer, 0),
hitEnd + buffer]` has non-positive duration, `processHit` discards the
candidate entirely: the per-movie sequence counter is not consumed, no
media-tool invocation is recorded, and no `ClipMetadataEntry` is
appended — the state is returned unchanged. -/
theorem processHit_degenerate_window_discards
    (cfg : ExtractorConfig) (st : ExtractorState) (hit : ClipCandidate)
    (videoRel subtitleRel relativeMovieDir : Str) (msElapsed : ℚ)
    (coverOk : Bool) (summaryResult : Option Str)
    (h : windowEnd cfg.bufferSeconds hit - windowStart cfg.bufferSeconds hit ≤ 0) :
    processHit cfg st hit videoRel subtitleRel relativeMovieDir msElapsed
      coverOk summaryResult = st := by
  rw [processHit]
  simp only []
  rw [if_pos h]

theorem processHit_degenerate_window_discards_witness :
    windowEnd (0 : ℚ) (ClipCandidate.mk 5 1 []) -
      windowStart (0 : ℚ) (ClipCandidate.mk 5 1 []) ≤ 0 ∧
    processHit (ExtractorConfig.mk 0 true ClipMode.fastCopy ContainerFormat.mkv
        none false false) initialState
      (ClipCandidate.mk 5 1 []) [] [] [] 0 false none = initialState :=
  ⟨by norm_num [windowEnd, windowStart],
   processHit_degenerate_window_discards _ _ _ _ _ _ _ _ _
     (by norm_num [windowEnd, windowStart])⟩

/-- C4 counterexample: the claim "for every zero-width match and every
nonnegative buffer, `windowEnd - windowStart ≥ 2 * bufferSeconds`" fails
at the zero-width hit at time 0 with buffer 1 second: the clamp
`max(hitStart - buffer, 0)` makes the window `[0, 1]`, of width
`1 < 2`. -/
theorem window_double_buffer_cex :
    (0 : ℚ) ≤ 1 ∧
    (ClipCandidate.mk 0 0 []).start = (ClipCandidate.mk 0 0 []).endTime ∧
    ¬ (2 * (1 : ℚ) ≤ windowEnd 1 (ClipCandidate.mk 0 0 []) -
        windowStart 1 (ClipCandidate.mk 0 0 [])) := by
  refine ⟨by norm_num, rfl, ?_⟩
  norm_num [windowEnd, windowStart]

/-- C4 (amended): for a zero-width match whose start time is at least
`bufferSeconds` (so the clamp at 0 does not bite), the window is at least
`2 * bufferSeconds` wide; and for every match and every buffer the window
start is clamped to be nonnegative. -/
theorem window_double_buffer_amended :
    (∀ (b : ℚ) (hit : ClipCandidate), hit.start = hit.endTime → 0 ≤ b →
      b ≤ hit.start → 2 * b ≤ windowEnd b hit - windowStart b hit) ∧
    (∀ (b : ℚ) (hit : ClipCandidate), 0 ≤ windowStart b hit) := by
  constructor
  · intro b hit hz _ hbs
    rw [windowEnd, windowStart, max_eq_left (by linarith)]
    linarith
  · intro b hit
    exact le_max_right _ _

theorem fullMatch_eval :
    hitsForBlock fullMatchEngine (SubtitleBlock.mk 0 2 "ab".toList []) 2 =
      some [ClipMatch.mk 0 2] := by
  rw [hitsForBlock]
  rw [if_neg (by norm_num)]
  show hitsScan fullMatchEngine "ab".toList 0 (2 - 0) (Nat.succ (Nat.succ 0)) 0 = _
  rw [hitsScan]
  have h1 : fullMatchEngine.exec "ab".toList 0 = some (0, 2) := by decide
  rw [h1]
  norm_num
  show hitsScan fullMatchEngine ['a', 'b'] 0 2 (Nat.succ 0) 2 = _
  rw [hitsScan]
  have h2 : fullMatchEngine.exec ['a', 'b'] 2 = none := by decide
  rw [h2]

theorem singleChar_eval :
    hitsForBlock singleCharEngine (SubtitleBlock.mk 0 2 "ab".toList []) 3 =
      some [ClipMatch.mk 0 1, ClipMatch.mk 1 2] := by
  rw [hitsForBlock]
  rw [if_neg (by norm_num)]
  show hitsScan singleCharEngine "ab".toList 0 (2 - 0)
    (Nat.succ (Nat.succ (Nat.succ 0))) 0 = _
  rw [hitsScan]
  have h1 : singleCharEngine.exec "ab".toList 0 = some (0, 1) := by decide
  rw [h1]
  norm_num
  show hitsScan singleCharEngine ['a', 'b'] 0 2 (Nat.succ (Nat.succ 0)) 1 = _
  rw [hitsScan]
  have h2 : singleCharEngine.exec ['a', 'b'] 1 = some (1, 1) := by decide
  rw [h2]
  norm_num
  show hitsScan singleCharEngine ['a', 'b'] 0 2 (Nat.succ 0) 2 = _
  rw [hitsScan]
  have h3 : singleCharEngine.exec ['a', 'b'] 2 = none := by decide
  rw [h3]

/-- C1: on a block with positive duration and non-empty text, when the
query's first scan (from cursor 0) matches the entire text
(`matchStart = 0`, `matchLen = textLength`), the first hit the locator
returns is exactly `[blockStart, blockEnd]` — the linear-ratio formula
`blockStart + duration * (matchStart / textLength)` collapses to
`blockStart`, and analogously the end ratio to `blockEnd`. -/
theorem hitsForBlock_full_match (e : RegexEngine) (block : SubtitleBlock)
    (fuel : ℕ) (res : List ClipMatch)
    (hd : 0 < block.endTime - block.start)
    (ht : block.text.length ≠ 0)
    (hexec : e.exec block.text 0 = some (0, block.text.length))
    (hres : hitsForBlock e block fuel = some res) :
    res.head? = some (ClipMatch.mk block.start block.endTime) := by
  rw [hitsForBlock] at hres
  rw [if_neg (by push_neg; exact ⟨by linarith, ht⟩)] at hres
  cases fuel with
  | zero => exact absurd hres (by simp [hitsScan])
  | succ f =>
    rw [hitsScan, hexec] at hres
    simp only [ht, reduceIte] at hres
    cases hrec : hitsScan e block.text block.start
        (block.endTime - block.start) f (0 + block.text.length) with
    | none => rw [hrec] at hres; exact absurd hres (by simp)
    | some rest =>
      rw [hrec] at hres
      simp only [Option.map_some', Option.some.injEq] at hres
      subst hres
      have hL : ((block.text.length : ℚ)) ≠ 0 := Nat.cast_ne_zero.mpr ht
      simp only [List.head?_cons, Option.some.injEq]
      have h1 : block.start + (block.endTime - block.start) *
          ((0 : ℚ) / (block.text.length : ℚ)) = block.start := by
        simp
      have h2 : block.start + (block.endTime - block.start) *
          (((0 + block.text.length : ℕ) : ℚ) / (block.text.length : ℚ)) =
          block.endTime := by
        rw [Nat.zero_add, div_self hL]
        ring
      rw [ClipMatch.mk.injEq]
      exact ⟨h1, h2⟩

theorem hitsForBlock_full_match_witness :
    ((0 : ℚ) < 2 - 0 ∧ ("ab".toList : Str).length ≠ 0 ∧
      fullMatchEngine.exec "ab".toList 0 = some (0, ("ab".toList : Str).length) ∧
      hitsForBlock fullMatchEngine (SubtitleBlock.mk 0 2 "ab".toList []) 2 =
        some [ClipMatch.mk 0 2]) ∧
    ([ClipMatch.mk 0 2] : List ClipMatch).head? = some (ClipMatch.mk 0 2) :=
  ⟨⟨by norm_num, by decide, by decide, fullMatch_eval⟩,
   hitsForBlock_full_match fullMatchEngine (SubtitleBlock.mk 0 2 "ab".toList [])
     2 [ClipMatch.mk 0 2] (by norm_num) (by decide) (by decide) fullMatch_eval⟩

theorem hitsScan_mem_bounds (e : RegexEngine) (hv : ExecValid e) (hp : PosLen e)
    (text : Str) (s d : ℚ) (hd : 0 < d) (hL : text.length ≠ 0) :
    ∀ fuel p res, hitsScan e text s d fuel p = some res →
      ∀ m ∈ res, s ≤ m.start ∧ m.start < m.endTime ∧ m.endTime ≤ s + d := by
  intro fuel
  induction fuel with
  | zero => intro p res h; exact absurd h (by simp [hitsScan])
  | succ f ih =>
    intro p res h
    rw [hitsScan] at h
    cases hex : e.exec text p with
    | none =>
      rw [hex] at h
      simp only [Option.some.injEq] at h
      subst h
      intro m hm
      exact absurd hm (List.not_mem_nil m)
    | some pr =>
      obtain ⟨i, l⟩ := pr
      rw [hex] at h
      have hl : 0 < l := hp _ _ _ _ hex
      have hb := hv _ _ _ _ hex
      simp only [Nat.pos_iff_ne_zero.mp hl, reduceIte] at h
      cases hrec : hitsScan e text s d f (i + l) with
      | none => rw [hrec] at h; exact absurd h (by simp)
      | some rest =>
        rw [hrec] at h
        simp only [Option.map_some', Option.some.injEq] at h
        subst h
        intro m hm
        rcases List.mem_cons.mp hm with hm | hm
        · subst hm
          have hLQ : (0 : ℚ) < (text.length : ℚ) := by
            exact_mod_cast Nat.pos_of_ne_zero hL
          refine ⟨?_, ?_, ?_⟩
          · show s ≤ s + d * ((i : ℚ) / (text.length : ℚ))
            have hnn : (0 : ℚ) ≤ d * ((i : ℚ) / (text.length : ℚ)) :=
              mul_nonneg (le_of_lt hd)
                (div_nonneg (Nat.cast_nonneg i) (le_of_lt hLQ))
            exact le_add_of_nonneg_right hnn
          · show s + d * ((i : ℚ) / (text.length : ℚ)) <
              s + d * (((i + l : ℕ) : ℚ) / (text.length : ℚ))
            have hlt : ((i : ℚ) / (text.length : ℚ)) <
                (((i + l : ℕ) : ℚ) / (text.length : ℚ)) := by
              rw [div_lt_div_iff_of_pos_right hLQ]
              exact_mod_cast Nat.lt_add_of_pos_right hl
            exact add_lt_add_left (mul_lt_mul_of_pos_left hlt hd) s
          · show s + d * (((i + l : ℕ) : ℚ) / (text.length : ℚ)) ≤ s + d
            have hle : (((i + l : ℕ) : ℚ) / (text.length : ℚ)) ≤ 1 := by
              rw [div_le_one hLQ]
              exact_mod_cast hb.2
            exact add_le_add_left (mul_le_of_le_one_right (le_of_lt hd) hle) s
        · exact ih (i + l) rest hrec m hm

/-- C10: every hit the locator returns for a query whose matches have
nonzero length lies inside the block's time range:
`blockStart ≤ hitStart < hitEnd ≤ blockEnd` (for blocks with positive
duration and non-empty text). -/
theorem hitsForBlock_hits_inside_block (e : RegexEngine) (block : SubtitleBlock)
    (fuel : ℕ) (res : List ClipMatch)
    (hv : ExecValid e) (hp : PosLen e)
    (hd : block.start < block.endTime)
    (ht : block.text.length ≠ 0)
    (hres : hitsForBlock e block fuel = some res) :
    ∀ m ∈ res, block.start ≤ m.start ∧ m.start < m.endTime ∧
      m.endTime ≤ block.endTime := by
  rw [hitsForBlock] at hres
  rw [if_neg (by push_neg; exact ⟨by linarith, ht⟩)] at hres
  intro m hm
  have hb := hitsScan_mem_bounds e hv hp block.text block.start
    (block.endTime - block.start) (by linarith) ht fuel 0 res hres m hm
  refine ⟨hb.1, hb.2.1, ?_⟩
  have h3 := hb.2.2
  linarith

theorem singleCharEngine_valid : ExecValid singleCharEngine := by
  intro t p i l h
  simp only [singleCharEngine] at h
  by_cases hc : p < t.length
  · rw [if_pos hc] at h
    simp only [Option.some.injEq, Prod.mk.injEq] at h
    exact ⟨by omega, by omega⟩
  · rw [if_neg hc] at h
    exact absurd h (by simp)

theorem singleCharEngine_posLen : PosLen singleCharEngine := by
  intro t p i l h
  simp only [singleCharEngine] at h
  by_cases hc : p < t.length
  · rw [if_pos hc] at h
    simp only [Option.some.injEq, Prod.mk.injEq] at h
    omega
  · rw [if_neg hc] at h
    exact absurd h (by simp)

theorem hitsForBlock_hits_inside_block_witness :
    ((0 : ℚ) < 2 ∧ ("ab".toList : Str).length ≠ 0 ∧
      hitsForBlock singleCharEngine (SubtitleBlock.mk 0 2 "ab".toList []) 3 =
        some [ClipMatch.mk 0 1, ClipMatch.mk 1 2] ∧
      ClipMatch.mk 0 1 ∈ [ClipMatch.mk 0 1, ClipMatch.mk 1 2]) ∧
    ((0 : ℚ) ≤ (ClipMatch.mk 0 1).start ∧
      (ClipMatch.mk 0 1).start < (ClipMatch.mk 0 1).endTime ∧
      (ClipMatch.mk 0 1).endTime ≤ 2) :=
  ⟨⟨by norm_num, by decide, singleChar_eval, by decide⟩,
   hitsForBlock_hits_inside_block singleCharEngine
     (SubtitleBlock.mk 0 2 "ab".toList []) 3 [ClipMatch.mk 0 1, ClipMatch.mk 1 2]
     singleCharEngine_valid singleCharEngine_posLen (by norm_num) (by decide)
     singleChar_eval (ClipMatch.mk 0 1) (by decide)⟩

theorem window_double_buffer_amended_witness :
    ((ClipCandidate.mk 2 2 []).start = (ClipCandidate.mk 2 2 []).endTime ∧
      (0 : ℚ) ≤ 1 ∧ (1 : ℚ) ≤ (ClipCandidate.mk 2 2 []).start) ∧
    2 * (1 : ℚ) ≤ windowEnd 1 (ClipCandidate.mk 2 2 []) -
      windowStart 1 (ClipCandidate.mk 2 2 []) :=
  ⟨⟨rfl, by norm_num, by norm_num⟩,
   window_double_buffer_amended.1 1 (ClipCandidate.mk 2 2 []) rfl (by norm_num)
     (by norm_num)⟩

/-! ## C5: subtitle track selection -/

/-- C5 counterexample: the claim says that with no English stream the
first stream with a text-based codec is chosen; but on
`[{codec: hdmv_pgs_subtitle}, {codec: ass}]` the code's fallback
(`first subrip stream ?? first stream`) selects the PGS stream, and the
codec gate then skips extraction entirely — the text-based `ass` stream
(index 1) is never chosen. -/
theorem subtitle_selection_claim_cex :
    claimedSelection
      [ProbeStream.mk 0 (some "hdmv_pgs_subtitle".toList) none,
       ProbeStream.mk 1 (some "ass".toList) none] = some 1 ∧
    extractDecision
      [ProbeStream.mk 0 (some "hdmv_pgs_subtitle".toList) none,
       ProbeStream.mk 1 (some "ass".toList) none] = none := by
  constructor
  · decide
  · decide

/-- C5 (amended): subtitle track selection follows this order: (1) the
first stream whose language tag starts with an English prefix; else
(2) the first stream whose codec is `subrip`, else the first stream of
the list whatever its codec; the selected stream yields a track only if
its codec is absent, empty, or one of the text-based codecs `subrip`,
`text`, `ass`, `ssa`, `webvtt`, `mov_text` — otherwise extraction is
skipped and no track is selected (image-based codecs such as PGS are
skipped).  Given streams `[{fr, subrip}, {en, ass}]` in either order, the
English stream is chosen. -/
theorem subtitle_selection_policy :
    (∀ streams s, streams.find? isEnglishStream = some s →
      findSubtitleStreamSelection streams = some (s.index, s.codec_name)) ∧
    (∀ streams s, streams.find? isEnglishStream = none →
      streams.find? (fun t => t.codec_name == some "subrip".toList) = some s →
      findSubtitleStreamSelection streams = some (s.index, s.codec_name)) ∧
    (∀ streams, streams.find? isEnglishStream = none →
      streams.find? (fun t => t.codec_name == some "subrip".toList) = none →
      findSubtitleStreamSelection streams =
        streams.head?.map (fun s => (s.index, s.codec_name))) ∧
    (∀ streams i c, findSubtitleStreamSelection streams = some (i, some c) →
      c ≠ [] → ¬ (textBasedCodecs.contains c = true) →
      extractDecision streams = none) ∧
    (extractDecision
        [ProbeStream.mk 0 (some "subrip".toList) (some "fr".toList),
         ProbeStream.mk 1 (some "ass".toList) (some "en".toList)] = some 1 ∧
      extractDecision
        [ProbeStream.mk 0 (some "ass".toList) (some "en".toList),
         ProbeStream.mk 1 (some "subrip".toList) (some "fr".toList)] = some 0) := by
  refine ⟨?_, ?_, ?_, ?_, by decide, by decide⟩
  · intro streams s h
    rw [findSubtitleStreamSelection, h]
  · intro streams s he hs
    rw [findSubtitleStreamSelection, he, hs]
  · intro streams he hs
    rw [findSubtitleStreamSelection, he, hs]
    cases streams.head? <;> rfl
  · intro streams i c hsel hne hnc
    rw [extractDecision, hsel]
    have h1 : c.isEmpty = false := by
      cases c with
      | nil => exact absurd rfl hne
      | cons a r => rfl
    have h2 : textBasedCodecs.contains c = false :=
      Bool.not_eq_true _ ▸ eq_false_of_ne_true hnc
    simp [h1, h2]
    intro hmem
    exact hnc (List.elem_eq_true_of_mem hmem)

theorem subtitle_selection_policy_witness :
    ([ProbeStream.mk 0 none (some "en".toList)].find? isEnglishStream =
      some (ProbeStream.mk 0 none (some "en".toList))) ∧
    findSubtitleStreamSelection [ProbeStream.mk 0 none (some "en".toList)] =
      some (0, none) :=
  ⟨by decide,
   subtitle_selection_policy.1 [ProbeStream.mk 0 none (some "en".toList)]
     (ProbeStream.mk 0 none (some "en".toList)) (by decide)⟩

/-! ## C9: media-tool argument lists -/

/-- C9: the media-tool argument list by mode.  In fast-copy mode the seek
flag precedes the input flag and stream copy (`-c copy`) is requested; in
accurate-transcode mode the seek flag follows the input flag and video and
audio are re-encoded (with the optional hardware path selected by
`buildVideoCodecArgs`); in clean-transcode mode the seek flag precedes the
input flag but video and audio are still re-encoded; and for the
streaming-friendly mp4 container the fast-start flags are appended in
every mode. -/
theorem runFfmpegArgs_mode_structure (videoPath : Str) (startTime duration : ℚ)
    (outputPath : Str) (container : ContainerFormat) (hwAccel : Option HardwareAccel)
    (ffmpegStats verbose : Bool) :
    (∃ pre, runFfmpegArgs videoPath startTime duration outputPath
        ClipMode.fastCopy container hwAccel ffmpegStats verbose =
      pre ++ ["-ss".toList, formatFfmpegTime startTime, "-i".toList, videoPath,
        "-t".toList, formatFfmpegTime duration, "-c".toList, "copy".toList] ++
      ffmpegContainerArgs container ++ [outputPath]) ∧
    (∃ pre, runFfmpegArgs videoPath startTime duration outputPath
        ClipMode.accurateTranscode container hwAccel ffmpegStats verbose =
      pre ++ ["-i".toList, videoPath, "-ss".toList, formatFfmpegTime startTime,
        "-t".toList, formatFfmpegTime duration] ++ buildVideoCodecArgs hwAccel ++
      ["-c:a".toList, "aac".toList, "-b:a".toList, "192k".toList] ++
      ffmpegContainerArgs container ++ [outputPath]) ∧
    (∃ pre, runFfmpegArgs videoPath startTime duration outputPath
        ClipMode.cleanTranscode container hwAccel ffmpegStats verbose =
      pre ++ ["-ss".toList, formatFfmpegTime startTime, "-i".toList, videoPath,
        "-t".toList, formatFfmpegTime duration, "-c:v".toList, "libx264".toList,
        "-preset".toList, "veryfast".toList, "-c:a".toList, "aac".toList,
        "-b:a".toList, "192k".toList] ++
      ffmpegContainerArgs container ++ [outputPath]) ∧
    (∀ mode, "-movflags".toList ∈ runFfmpegArgs videoPath startTime duration
        outputPath mode ContainerFormat.mp4 hwAccel ffmpegStats verbose ∧
      "+faststart".toList ∈ runFfmpegArgs videoPath startTime duration
        outputPath mode ContainerFormat.mp4 hwAccel ffmpegStats verbose) := by
  refine ⟨?_, ?_, ?_, ?_⟩
  · refine ⟨ffmpegBaseArgs verbose ffmpegStats ++ ffmpegHwDecodeArgs hwAccel, ?_⟩
    simp [runFfmpegArgs]
  · refine ⟨ffmpegBaseArgs verbose ffmpegStats ++ ffmpegHwDecodeArgs hwAccel, ?_⟩
    simp [runFfmpegArgs]
  · refine ⟨ffmpegBaseArgs verbose ffmpegStats, ?_⟩
    simp [runFfmpegArgs]
  · intro mode
    cases mode <;>
      simp [runFfmpegArgs, ffmpegContainerArgs]

/-! ## C6: output naming -/

theorem digitChar_toNat (k : ℕ) (h : k < 10) : (digitChar k).toNat = 48 + k := by
  interval_cases k <;> rfl

theorem valFrom_cons (a : ℕ) (c : Char) (s : Str) :
    valFrom a (c :: s) = valFrom (a * 10 + (c.toNat - 48)) s := rfl

theorem valFrom_append (a : ℕ) (xs ys : Str) :
    valFrom a (xs ++ ys) = valFrom (valFrom a xs) ys := by
  simp [valFrom, List.foldl_append]

theorem valFrom_natToDigitsAux :
    ∀ (fuel n : ℕ) (acc : Str), n ≤ fuel →
      valFrom 0 (natToDigitsAux fuel n acc) = valFrom n acc := by
  intro fuel
  induction fuel with
  | zero =>
    intro n acc h
    have hn : n = 0 := Nat.le_zero.mp h
    subst hn
    rfl
  | succ f ih =>
    intro n acc h
    rw [natToDigitsAux]
    by_cases hn : n = 0
    · subst hn; simp
    · rw [if_neg hn]
      have hlt : n / 10 < n := Nat.div_lt_self (Nat.pos_of_ne_zero hn) (by decide)
      rw [ih (n / 10) _ (by omega), valFrom_cons]
      congr 1
      rw [digitChar_toNat _ (Nat.mod_lt _ (by decide))]
      omega

theorem digitsVal_natToDigits (n : ℕ) : digitsVal (natToDigits n) = n := by
  rw [natToDigits]
  by_cases h : n = 0
  · subst h; rfl
  · rw [if_neg h]
    have hv := valFrom_natToDigitsAux (n + 1) n [] (by omega)
    simpa [digitsVal, valFrom] using hv

theorem natToDigits_inj {i j : ℕ} (h : natToDigits i = natToDigits j) : i = j := by
  have hv := congrArg digitsVal h
  rwa [digitsVal_natToDigits, digitsVal_natToDigits] at hv

theorem mem_natToDigitsAux_digit :
    ∀ (fuel n : ℕ) (acc : Str), (∀ c ∈ acc, 48 ≤ c.toNat ∧ c.toNat ≤ 57) →
      ∀ c ∈ natToDigitsAux fuel n acc, 48 ≤ c.toNat ∧ c.toNat ≤ 57 := by
  intro fuel
  induction fuel with
  | zero => intro n acc hacc; exact hacc
  | succ f ih =>
    intro n acc hacc
    rw [natToDigitsAux]
    by_cases hn : n = 0
    · rw [if_pos hn]; exact hacc
    · rw [if_neg hn]
      refine ih (n / 10) _ ?_
      intro c hc
      rcases List.mem_cons.mp hc with hc | hc
      · subst hc
        rw [digitChar_toNat _ (Nat.mod_lt _ (by decide))]
        omega
      · exact hacc c hc

theorem mem_natToDigits_digit (n : ℕ) :
    ∀ c ∈ natToDigits n, 48 ≤ c.toNat ∧ c.toNat ≤ 57 := by
  rw [natToDigits]
  by_cases h : n = 0
  · rw [if_pos h]; intro c hc; simp at hc; subst hc; decide
  · rw [if_neg h]
    exact mem_natToDigitsAux_digit (n + 1) n [] (by intro c hc; cases hc)

theorem underscore_notin_natToDigits (n : ℕ) : '_' ∉ natToDigits n := by
  intro h
  have hr := mem_natToDigits_digit n _ h
  have h95 : ('_').toNat = 95 := rfl
  omega

theorem append_marker_inj (m : Char) :
    ∀ (a₁ a₂ r₁ r₂ : Str), m ∉ a₁ → m ∉ a₂ →
      a₁ ++ m :: r₁ = a₂ ++ m :: r₂ → a₁ = a₂ ∧ r₁ = r₂ := by
  intro a₁
  induction a₁ with
  | nil =>
    intro a₂ r₁ r₂ _ h2 heq
    cases a₂ with
    | nil => simpa using heq
    | cons b bs =>
      rw [List.nil_append, List.cons_append] at heq
      obtain ⟨hmb, _⟩ := List.cons.injEq .. ▸ heq
      exact absurd (hmb ▸ List.mem_cons_self b bs) h2
  | cons a as ih =>
    intro a₂ r₁ r₂ h1 h2 heq
    cases a₂ with
    | nil =>
      rw [List.cons_append, List.nil_append] at heq
      obtain ⟨ham, _⟩ := List.cons.injEq .. ▸ heq
      exact absurd (ham ▸ List.mem_cons_self a as) h1
    | cons b bs =>
      rw [List.cons_append, List.cons_append] at heq
      obtain ⟨hab, htail⟩ := List.cons.injEq .. ▸ heq
      have hrec := ih bs r₁ r₂ (fun hm => h1 (List.mem_cons_of_mem a hm))
        (fun hm => h2 (List.mem_cons_of_mem b hm)) htail
      exact ⟨by rw [hab, hrec.1], hrec.2⟩

theorem buildOutputName_index_inj (rel : Str) (i j : ℕ) (t₁ t₂ : ℚ)
    (cont : ContainerFormat) (hij : i ≠ j) :
    buildOutputName rel i t₁ cont ≠ buildOutputName rel j t₂ cont := by
  intro h
  rw [buildOutputName, buildOutputName] at h
  have h1 := List.append_cancel_left h
  obtain ⟨-, h2⟩ := List.cons.injEq .. ▸ h1
  have h3 := append_marker_inj '_' (natToDigits i) (natToDigits j) _ _
    (underscore_notin_natToDigits i) (underscore_notin_natToDigits j) h2
  exact hij (natToDigits_inj h3.1)

/-- C6 counterexample: filenames are not pairwise distinct across
different source movies.  The movie directories `"A B"` and `"a_b"` are
distinct (so they get independent per-movie counters, both starting at
index 1), but they slugify to the same `a_b`; with equal window start
times the two recorded clips carry the identical output filename. -/
theorem run_filenames_claim_cex :
    ("A B".toList : Str) ≠ "a_b".toList ∧
    ((processHit (ExtractorConfig.mk 0 true ClipMode.fastCopy ContainerFormat.mkv
          none false false)
        (processHit (ExtractorConfig.mk 0 true ClipMode.fastCopy
          ContainerFormat.mkv none false false) initialState
          (ClipCandidate.mk 10 (21/2) []) "v".toList "s".toList "A B".toList
          0 false none)
        (ClipCandidate.mk 10 (21/2) []) "v".toList "s".toList "a_b".toList
        0 false none).metadataEntries.map (fun e => e.file)) =
      ["vids/a_b_1_000010_000.mkv".toList, "vids/a_b_1_000010_000.mkv".toList] ∧
    ¬ ((processHit (ExtractorConfig.mk 0 true ClipMode.fastCopy ContainerFormat.mkv
          none false false)
        (processHit (ExtractorConfig.mk 0 true ClipMode.fastCopy
          ContainerFormat.mkv none false false) initialState
          (ClipCandidate.mk 10 (21/2) []) "v".toList "s".toList "A B".toList
          0 false none)
        (ClipCandidate.mk 10 (21/2) []) "v".toList "s".toList "a_b".toList
        0 false none).metadataEntries.map (fun e => e.file)).Pairwise
      (fun a b => a ≠ b) := by
  have hguard : ¬ (windowEnd (0:ℚ) (ClipCandidate.mk 10 (21/2) []) -
      windowStart (0:ℚ) (ClipCandidate.mk 10 (21/2) []) ≤ 0) := by
    norm_num [windowEnd, windowStart]
  have hws : windowStart (0:ℚ) (ClipCandidate.mk 10 (21/2) []) = 10 := by
    norm_num [windowStart]
  have hfloor : Int.floor ((10:ℚ) * 1000 + 1/2) = 10000 := by
    norm_num [Int.floor_eq_iff]
  have hname : buildOutputName "A B".toList 1 10 ContainerFormat.mkv =
      "a_b_1_000010_000.mkv".toList := by
    rw [buildOutputName, formatStartTag, toFixed3, hfloor]
    decide
  have hname2 : buildOutputName "a_b".toList 1 10 ContainerFormat.mkv =
      "a_b_1_000010_000.mkv".toList := by
    rw [buildOutputName, formatStartTag, toFixed3, hfloor]
    decide
  refine ⟨by decide, ?_, ?_⟩
  · rw [processHit, if_neg hguard, processHit, if_neg hguard]
    simp [initialState, hws,
      show ¬(("a_b".toList : Str) = "A B".toList) from by decide]
    exact ⟨hname, hname2⟩
  · rw [processHit, if_neg hguard, processHit, if_neg hguard]
    simp [initialState, hws,
      show ¬(("a_b".toList : Str) = "A B".toList) from by decide,
      List.pairwise_cons]
    exact hname.trans hname2.symm

theorem processHit_positive_step (cfg : ExtractorConfig) (st : ExtractorState)
    (hit : ClipCandidate) (v s rel : Str) (pm : ℚ) (cov : Bool)
    (sum : Option Str)
    (h : 0 < windowEnd cfg.bufferSeconds hit - windowStart cfg.bufferSeconds hit) :
    (processHit cfg st hit v s rel pm cov sum).movieClipCounts rel =
      st.movieClipCounts rel + 1 ∧
    ∃ entry, (processHit cfg st hit v s rel pm cov sum).metadataEntries =
        st.metadataEntries ++ [entry] ∧
      entry.file = "vids/".toList ++ buildOutputName rel
        (st.movieClipCounts rel + 1) (windowStart cfg.bufferSeconds hit)
        cfg.container := by
  rw [processHit, if_neg (not_le.mpr h)]
  refine ⟨by simp, ⟨_, rfl, rfl⟩⟩

/-- C6 (amended): within one run, output filenames of clips recorded from
the same source movie are pairwise distinct: the filename embeds the
per-movie sequence index injectively (for a fixed movie directory and
container, distinct indices give distinct names), each processed hit
increments the movie's counter by exactly one (so two hits from the same
movie get indices `k+1` and `k+2`, in particular 1 and 2 from a fresh
counter, never the same index), and hence two hits processed for the same
movie append entries with different filenames.  Across DIFFERENT source
movies the claim fails (see the counterexample): two distinct movie
directories may slugify to the same name and collide. -/
theorem same_movie_filenames_distinct :
    (∀ (rel : Str) (i j : ℕ) (t₁ t₂ : ℚ) (cont : ContainerFormat), i ≠ j →
      buildOutputName rel i t₁ cont ≠ buildOutputName rel j t₂ cont) ∧
    (∀ cfg st hit v s rel pm cov sum,
      0 < windowEnd cfg.bufferSeconds hit - windowStart cfg.bufferSeconds hit →
      (processHit cfg st hit v s rel pm cov sum).movieClipCounts rel =
        st.movieClipCounts rel + 1 ∧
      ∃ entry, (processHit cfg st hit v s rel pm cov sum).metadataEntries =
          st.metadataEntries ++ [entry] ∧
        entry.file = "vids/".toList ++ buildOutputName rel
          (st.movieClipCounts rel + 1) (windowStart cfg.bufferSeconds hit)
          cfg.container) ∧
    (∀ cfg st h₁ h₂ v₁ s₁ v₂ s₂ rel pm₁ pm₂ c₁ c₂ su₁ su₂,
      0 < windowEnd cfg.bufferSeconds h₁ - windowStart cfg.bufferSeconds h₁ →
      0 < windowEnd cfg.bufferSeconds h₂ - windowStart cfg.bufferSeconds h₂ →
      ∃ e₁ e₂,
        (processHit cfg (processHit cfg st h₁ v₁ s₁ rel pm₁ c₁ su₁) h₂ v₂ s₂ rel
          pm₂ c₂ su₂).metadataEntries = st.metadataEntries ++ [e₁, e₂] ∧
        e₁.file ≠ e₂.file) := by
  refine ⟨buildOutputName_index_inj, processHit_positive_step, ?_⟩
  intro cfg st h₁ h₂ v₁ s₁ v₂ s₂ rel pm₁ pm₂ c₁ c₂ su₁ su₂ hw₁ hw₂
  obtain ⟨hc₁, e₁, he₁, hf₁⟩ :=
    processHit_positive_step cfg st h₁ v₁ s₁ rel pm₁ c₁ su₁ hw₁
  obtain ⟨hc₂, e₂, he₂, hf₂⟩ :=
    processHit_positive_step cfg (processHit cfg st h₁ v₁ s₁ rel pm₁ c₁ su₁)
      h₂ v₂ s₂ rel pm₂ c₂ su₂ hw₂
  refine ⟨e₁, e₂, ?_, ?_⟩
  · rw [he₂, he₁, List.append_assoc]
    rfl
  · rw [hf₁, hf₂, hc₁]
    intro heq
    have hn := List.append_cancel_left heq
    exact buildOutputName_index_inj rel _ _ _ _ cfg.container (by omega) hn

theorem same_movie_filenames_distinct_witness :
    ((0:ℚ) < windowEnd (0:ℚ) (ClipCandidate.mk 10 (21/2) []) -
      windowStart (0:ℚ) (ClipCandidate.mk 10 (21/2) [])) ∧
    (∃ e₁ e₂,
      (processHit (ExtractorConfig.mk 0 true ClipMode.fastCopy
          ContainerFormat.mkv none false false)
        (processHit (ExtractorConfig.mk 0 true ClipMode.fastCopy
            ContainerFormat.mkv none false false) initialState
          (ClipCandidate.mk 10 (21/2) []) "v".toList "s".toList "m".toList
          0 false none)
        (ClipCandidate.mk 10 (21/2) []) "v".toList "s".toList "m".toList
        0 false none).metadataEntries = initialState.metadataEntries ++ [e₁, e₂] ∧
      e₁.file ≠ e₂.file) :=
  ⟨by norm_num [windowEnd, windowStart],
   same_movie_filenames_distinct.2.2 (ExtractorConfig.mk 0 true ClipMode.fastCopy
      ContainerFormat.mkv none false false) initialState
     (ClipCandidate.mk 10 (21/2) []) (ClipCandidate.mk 10 (21/2) [])
     "v".toList "s".toList "v".toList "s".toList "m".toList 0 0 false false
     none none (by norm_num [windowEnd, windowStart])
     (by norm_num [windowEnd, windowStart])⟩

/-! ## C7: SRT parsing tolerance -/

/-- C7: `parseSrt` is a total function from raw subtitle text to blocks —
it never raises.  Every block it returns comes from some blank-line
chunk whose timing parsed and whose joined text is non-empty, and the
block's start and end are exactly `h*3600 + m*60 + s + ms/1000` for the
numbers captured from the chunk's start and end timestamps; chunks with
fewer than two lines, a missing or empty timing piece, empty joined
text, or an unparsable timestamp contribute nothing (dropped, not
escalated). -/
theorem parseSrt_tolerant :
    (∀ fp contents b, b ∈ parseSrt fp contents →
      b.text ≠ [] ∧
      ∃ chunk, chunk ∈ splitChunks contents ∧ parseChunk fp chunk = some b ∧
        ∃ t1 t2, findTS (startRawOf chunk) = some t1 ∧
          findTS (endRawOf chunk) = some t2 ∧
          b.start = (t1.1 : ℚ) * 3600 + (t1.2.1 : ℚ) * 60 + (t1.2.2.1 : ℚ) +
            (t1.2.2.2 : ℚ) / 1000 ∧
          b.endTime = (t2.1 : ℚ) * 3600 + (t2.2.1 : ℚ) * 60 + (t2.2.2.1 : ℚ) +
            (t2.2.2.2 : ℚ) / 1000) ∧
    (∀ fp chunk,
      ((chunkLines chunk).length < 2 ∨ startRawOf chunk = [] ∨
        endRawOf chunk = [] ∨ textOf chunk = [] ∨
        findTS (startRawOf chunk) = none ∨ findTS (endRawOf chunk) = none) →
      parseChunk fp chunk = none) := by
  constructor
  · intro fp contents b hb
    rw [parseSrt] at hb
    obtain ⟨chunk, hmem, hp⟩ := List.mem_filterMap.mp hb
    refine ⟨?_, chunk, hmem, hp, ?_⟩
    all_goals
      rw [parseChunk] at hp
      split_ifs at hp with h1 h2 h3
      rcases hts1 : parseTimestampQ (startRawOf chunk) with _ | s <;>
        rw [hts1] at hp
      · simp at hp
      rcases hts2 : parseTimestampQ (endRawOf chunk) with _ | e <;>
        rw [hts2] at hp
      · simp at hp
      simp only [Option.some.injEq] at hp
      subst hp
    · simpa using h3
    · obtain ⟨tpl1, hf1, hv1⟩ := Option.map_eq_some'.mp hts1
      obtain ⟨tpl2, hf2, hv2⟩ := Option.map_eq_some'.mp hts2
      exact ⟨tpl1, tpl2, hf1, hf2, hv1.symm, hv2.symm⟩
  · intro fp chunk h
    rw [parseChunk]
    split_ifs with h1 h2 h3
    · rfl
    · rfl
    · rfl
    · rcases h with h | h | h | h | h | h
      · exact absurd h h1
      · exact absurd (Or.inl h) h2
      · exact absurd (Or.inr h) h2
      · exact absurd h h3
      · have hs : parseTimestampQ (startRawOf chunk) = none := by
          simp [parseTimestampQ, h]
        rw [hs]
      · have he : parseTimestampQ (endRawOf chunk) = none := by
          simp [parseTimestampQ, h]
        rw [he]
        cases parseTimestampQ (startRawOf chunk) <;> rfl

theorem parseSrt_tolerant_witness :
    (SubtitleBlock.mk 1 (5/2) "Hello there".toList [] ∈
      parseSrt []
        "1\n00:00:01,000 --> 00:00:02,500\nHello there\n\nbroken".toList) ∧
    ((SubtitleBlock.mk 1 (5/2) "Hello there".toList []).text ≠ [] ∧
      ∃ chunk, chunk ∈ splitChunks
          "1\n00:00:01,000 --> 00:00:02,500\nHello there\n\nbroken".toList ∧
        parseChunk [] chunk = some (SubtitleBlock.mk 1 (5/2) "Hello there".toList []) ∧
        ∃ t1 t2, findTS (startRawOf chunk) = some t1 ∧
          findTS (endRawOf chunk) = some t2 ∧
          (SubtitleBlock.mk 1 (5/2) "Hello there".toList []).start =
            (t1.1 : ℚ) * 3600 + (t1.2.1 : ℚ) * 60 + (t1.2.2.1 : ℚ) +
              (t1.2.2.2 : ℚ) / 1000 ∧
          (SubtitleBlock.mk 1 (5/2) "Hello there".toList []).endTime =
            (t2.1 : ℚ) * 3600 + (t2.2.1 : ℚ) * 60 + (t2.2.2.1 : ℚ) +
              (t2.2.2.2 : ℚ) / 1000) := by
  have hts1 : parseTimestampQ (startRawOf
      "1\n00:00:01,000 --> 00:00:02,500\nHello there".toList) = some 1 := by
    rw [parseTimestampQ,
      show findTS (startRawOf
          "1\n00:00:01,000 --> 00:00:02,500\nHello there".toList) =
        some (0, 0, 1, 0) from by decide]
    rw [Option.map_some']
    norm_num [tsVal]
  have hts2 : parseTimestampQ (endRawOf
      "1\n00:00:01,000 --> 00:00:02,500\nHello there".toList) = some (5/2) := by
    rw [parseTimestampQ,
      show findTS (endRawOf
          "1\n00:00:01,000 --> 00:00:02,500\nHello there".toList) =
        some (0, 0, 2, 500) from by decide]
    rw [Option.map_some']
    norm_num [tsVal]
  have hpc1 : parseChunk []
      "1\n00:00:01,000 --> 00:00:02,500\nHello there".toList =
      some (SubtitleBlock.mk 1 (5/2) "Hello there".toList []) := by
    rw [parseChunk, if_neg (by decide), if_neg (by decide), if_neg (by decide),
      hts1, hts2]
    rfl
  have hsplit : splitChunks
      "1\n00:00:01,000 --> 00:00:02,500\nHello there\n\nbroken".toList =
      ["1\n00:00:01,000 --> 00:00:02,500\nHello there".toList,
       "broken".toList] := by decide
  have hpc2 : parseChunk [] "broken".toList = none := by
    rw [parseChunk, if_pos (by decide)]
  have hmem : SubtitleBlock.mk 1 (5/2) "Hello there".toList [] ∈
      parseSrt []
        "1\n00:00:01,000 --> 00:00:02,500\nHello there\n\nbroken".toList := by
    rw [parseSrt, hsplit, List.filterMap_cons_some hpc1,
      List.filterMap_cons_none hpc2, List.filterMap_nil]
    exact List.mem_singleton.mpr rfl
  exact ⟨hmem, parseSrt_tolerant.1 _ _ _ hmem⟩

/-! ## C8: manifest serialization round trip -/

theorem natToDigitsAux_length :
    ∀ (fuel n : ℕ) (acc : Str), acc.length ≤ (natToDigitsAux fuel n acc).length := by
  intro fuel
  induction fuel with
  | zero => intro n acc; exact le_refl _
  | succ f ih =>
    intro n acc
    rw [natToDigitsAux]
    by_cases hn : n = 0
    · rw [if_pos hn]
    · rw [if_neg hn]
      have h := ih (n / 10) (digitChar (n % 10) :: acc)
      simp only [List.length_cons] at h
      omega

theorem natToDigits_ne_nil (n : ℕ) : natToDigits n ≠ [] := by
  rw [natToDigits]
  by_cases h : n = 0
  · rw [if_pos h]; decide
  · rw [if_neg h]
    show natToDigitsAux (n + 1) n [] ≠ []
    rw [natToDigitsAux, if_neg h]
    have hl := natToDigitsAux_length n (n / 10) [digitChar (n % 10)]
    intro hnil
    rw [hnil] at hl
    simp at hl

theorem isDigitChar_iff (c : Char) :
    isDigitChar c = true ↔ 48 ≤ c.toNat ∧ c.toNat ≤ 57 := by
  simp [isDigitChar]

theorem parseNatStr_natToDigits (n : ℕ) : parseNatStr (natToDigits n) = some n := by
  rw [parseNatStr, if_pos, digitsVal_natToDigits]
  refine ⟨natToDigits_ne_nil n, ?_⟩
  rw [List.all_eq_true]
  intro c hc
  exact (isDigitChar_iff c).mpr (mem_natToDigits_digit n c hc)

theorem threeDigits_val (f : ℕ) (h : f < 1000) : digitsVal (threeDigits f) = f := by
  have h1 : f / 100 < 10 := by omega
  have h2 : f / 10 % 10 < 10 := Nat.mod_lt _ (by decide)
  have h3 : f % 10 < 10 := Nat.mod_lt _ (by decide)
  show valFrom 0 [digitChar (f / 100), digitChar (f / 10 % 10), digitChar (f % 10)] = f
  rw [valFrom_cons, valFrom_cons, valFrom_cons]
  show (((0 * 10 + ((digitChar (f / 100)).toNat - 48)) * 10 +
    ((digitChar (f / 10 % 10)).toNat - 48)) * 10 +
    ((digitChar (f % 10)).toNat - 48)) = f
  rw [digitChar_toNat _ h1, digitChar_toNat _ h2, digitChar_toNat _ h3]
  omega

theorem mem_threeDigits_digit (f : ℕ) (h : f < 1000) :
    ∀ c ∈ threeDigits f, 48 ≤ c.toNat ∧ c.toNat ≤ 57 := by
  intro c hc
  have h1 : f / 100 < 10 := by omega
  have h2 : f / 10 % 10 < 10 := Nat.mod_lt _ (by decide)
  have h3 : f % 10 < 10 := Nat.mod_lt _ (by decide)
  rw [threeDigits] at hc
  simp only [List.mem_cons, List.not_mem_nil, or_false] at hc
  rcases hc with hc | hc | hc
  · rw [hc, digitChar_toNat _ h1]; omega
  · rw [hc, digitChar_toNat _ h2]; omega
  · rw [hc, digitChar_toNat _ h3]; omega

theorem dropTrailingZeros_decomp (s : Str) :
    ∃ k, s = dropTrailingZeros s ++ List.replicate k '0' := by
  refine ⟨(s.reverse.takeWhile (fun c => c == '0')).length, ?_⟩
  have hsplit := List.takeWhile_append_dropWhile
    (p := fun c => c == '0') (l := s.reverse)
  have hrev : (s.reverse.takeWhile (fun c => c == '0')).reverse =
      List.replicate (s.reverse.takeWhile (fun c => c == '0')).length '0' := by
    have hmem : ∀ b ∈ (s.reverse.takeWhile (fun c => c == '0')).reverse,
        b = '0' := by
      intro b hb
      have hb' := List.mem_reverse.mp hb
      have hp := List.mem_takeWhile_imp (p := fun c => c == '0') hb'
      exact eq_of_beq hp
    have hr := List.eq_replicate_of_mem hmem
    rw [hr, List.length_reverse]
  calc s = s.reverse.reverse := (List.reverse_reverse s).symm
    _ = (s.reverse.takeWhile (fun c => c == '0') ++
          s.reverse.dropWhile (fun c => c == '0')).reverse := by rw [hsplit]
    _ = (s.reverse.dropWhile (fun c => c == '0')).reverse ++
          (s.reverse.takeWhile (fun c => c == '0')).reverse := by
        rw [List.reverse_append]
    _ = dropTrailingZeros s ++ List.replicate
          (s.reverse.takeWhile (fun c => c == '0')).length '0' := by
        rw [dropTrailingZeros]
        congr 1

theorem digitsVal_append_zeros (t : Str) (k : ℕ) :
    digitsVal (t ++ List.replicate k '0') = digitsVal t * 10 ^ k := by
  induction k with
  | zero => simp [digitsVal]
  | succ m ih =>
    rw [List.replicate_succ', ← List.append_assoc]
    show valFrom 0 ((t ++ List.replicate m '0') ++ ['0']) = _
    rw [valFrom_append]
    show valFrom 0 (t ++ List.replicate m '0') * 10 + ('0'.toNat - 48) =
      digitsVal t * 10 ^ (m + 1)
    have hv : valFrom 0 (t ++ List.replicate m '0') = digitsVal t * 10 ^ m := ih
    rw [hv]
    have : ('0'.toNat - 48) = 0 := rfl
    rw [this]
    ring

theorem takeWhile_all (p : Char → Bool) (xs : Str) (h : ∀ x ∈ xs, p x = true) :
    xs.takeWhile p = xs ∧ xs.dropWhile p = [] := by
  induction xs with
  | nil => simp
  | cons a r ih =>
    have pa := h a (List.mem_cons_self a r)
    have hrest := ih (fun x hx => h x (List.mem_cons_of_mem a hx))
    rw [List.takeWhile_cons, List.dropWhile_cons, pa]
    simp [hrest.1, hrest.2]

theorem takeWhile_append_stop (p : Char → Bool) (xs : Str)
    (h : ∀ x ∈ xs, p x = true) (y : Char) (hy : p y = false) (ys : Str) :
    (xs ++ y :: ys).takeWhile p = xs ∧ (xs ++ y :: ys).dropWhile p = y :: ys := by
  induction xs with
  | nil =>
    rw [List.nil_append, List.takeWhile_cons, List.dropWhile_cons, hy]
    simp
  | cons a r ih =>
    have pa := h a (List.mem_cons_self a r)
    have hrest := ih (fun x hx => h x (List.mem_cons_of_mem a hx))
    rw [List.cons_append, List.takeWhile_cons, List.dropWhile_cons, pa]
    simp [hrest.1, hrest.2]

theorem digit_beq_dot_false (c : Char) (h : 48 ≤ c.toNat ∧ c.toNat ≤ 57) :
    (c == '.') = false := by
  rw [beq_eq_false_iff_ne]
  intro hc
  rw [hc] at h
  exact absurd h (by decide)

theorem parseQStr_qToStr (q : ℚ) (h0 : 0 ≤ q) (hden : (q * 1000).den = 1) :
    parseQStr (qToStr q) = some q := by
  have hq1000 : ((q * 1000).num : ℚ) = q * 1000 := by
    have hh := Rat.num_div_den (q * 1000)
    rw [hden, Nat.cast_one, div_one] at hh
    exact hh
  have hfl : Int.floor (q * 1000) = (q * 1000).num := by
    conv_lhs => rw [← hq1000]
    exact Int.floor_intCast _
  have hnum0 : 0 ≤ (q * 1000).num := Rat.num_nonneg.mpr (by positivity)
  rw [qToStr, hfl, if_neg (by omega)]
  set N : ℕ := (q * 1000).num.toNat with hN
  have hqN : ((N : ℚ)) = q * 1000 := by
    rw [← hq1000]
    exact_mod_cast Int.toNat_of_nonneg hnum0
  have hq : q = (N : ℚ) / 1000 := by
    rw [hqN]
    field_simp
  rw [qDigits]
  by_cases hf : N % 1000 = 0
  · rw [if_pos hf]
    rw [parseQStr]
    have hdig := mem_natToDigits_digit (N / 1000)
    have hall : ∀ x ∈ natToDigits (N / 1000), (fun c => !(c == '.')) x = true := by
      intro x hx
      have := digit_beq_dot_false x (hdig x hx)
      simp [this]
    have htw := takeWhile_all _ _ hall
    rw [htw.2]
    show (match parseNatStr (natToDigits (N / 1000)) with
      | some n => some ((n : ℚ))
      | none => none) = some q
    rw [parseNatStr_natToDigits]
    show some (((N / 1000 : ℕ)) : ℚ) = some q
    congr 1
    rw [hq]
    have hdvd : 1000 ∣ N := Nat.dvd_of_mod_eq_zero hf
    rw [eq_div_iff (by norm_num : (1000 : ℚ) ≠ 0)]
    exact_mod_cast (Nat.div_mul_cancel hdvd)
  · rw [if_neg hf]
    rw [parseQStr]
    set t : Str := dropTrailingZeros (threeDigits (N % 1000)) with ht
    have hlt : N % 1000 < 1000 := Nat.mod_lt _ (by decide)
    obtain ⟨k, hdec⟩ := dropTrailingZeros_decomp (threeDigits (N % 1000))
    rw [← ht] at hdec
    have hdig := mem_natToDigits_digit (N / 1000)
    have hall : ∀ x ∈ natToDigits (N / 1000), (fun c => !(c == '.')) x = true := by
      intro x hx
      have := digit_beq_dot_false x (hdig x hx)
      simp [this]
    have hdot : (fun c => !(c == '.')) '.' = false := by simp
    have htw := takeWhile_append_stop _ _ hall '.' hdot t
    rw [htw.2]
    show (match parseNatStr ((natToDigits (N / 1000) ++ '.' :: t).takeWhile
        (fun c => !(c == '.'))), parseNatStr t with
      | some x, some y => some ((x : ℚ) + (y : ℚ) / (10 : ℚ) ^ t.length)
      | _, _ => none) = some q
    rw [htw.1]
    have htmem : ∀ c ∈ t, 48 ≤ c.toNat ∧ c.toNat ≤ 57 := by
      intro c hc
      refine mem_threeDigits_digit (N % 1000) hlt c ?_
      rw [hdec]
      exact List.mem_append_left _ hc
    have htne : t ≠ [] := by
      intro hnil
      rw [hnil, List.nil_append] at hdec
      have hval := threeDigits_val (N % 1000) hlt
      rw [hdec] at hval
      have hz : digitsVal (List.replicate k '0') = 0 := by
        have hzz := digitsVal_append_zeros [] k
        rw [List.nil_append] at hzz
        rw [hzz]
        simp [digitsVal, valFrom]
      omega
    have hpt : parseNatStr t = some (digitsVal t) := by
      rw [parseNatStr, if_pos]
      refine ⟨htne, ?_⟩
      rw [List.all_eq_true]
      intro c hc
      exact (isDigitChar_iff c).mpr (htmem c hc)
    rw [parseNatStr_natToDigits, hpt]
    have hfval : N % 1000 = digitsVal t * 10 ^ k := by
      have hval := threeDigits_val (N % 1000) hlt
      rw [hdec, digitsVal_append_zeros] at hval
      omega
    have hlen : t.length + k = 3 := by
      have hl := congrArg List.length hdec
      simp only [List.length_append, List.length_replicate] at hl
      have h3 : (threeDigits (N % 1000)).length = 3 := rfl
      omega
    show some (((N / 1000 : ℕ) : ℚ) +
      (digitsVal t : ℚ) / (10 : ℚ) ^ t.length) = some q
    congr 1
    rw [hq]
    have h10 : (10 : ℚ) ^ t.length * (10 : ℚ) ^ k = 1000 := by
      rw [← pow_add, hlen]
      norm_num
    have hNsplit : 1000 * (N / 1000) + N % 1000 = N := Nat.div_add_mod N 1000
    have hfq : ((N % 1000 : ℕ) : ℚ) = (digitsVal t : ℚ) * (10 : ℚ) ^ k := by
      exact_mod_cast congrArg (fun x => ((x : ℕ) : ℚ)) hfval
    have hNq : ((N : ℕ) : ℚ) = 1000 * ((N / 1000 : ℕ) : ℚ) + ((N % 1000 : ℕ) : ℚ) := by
      exact_mod_cast hNsplit.symm
    rw [eq_div_iff (by norm_num : (1000 : ℚ) ≠ 0), add_mul]
    have hYZ : (digitsVal t : ℚ) / (10 : ℚ) ^ t.length * 1000 =
        (digitsVal t : ℚ) * (10 : ℚ) ^ k := by
      rw [← h10]
      have hzne : ((10 : ℚ) ^ t.length) ≠ 0 := by positivity
      field_simp
      ring
    rw [hYZ, hNq, hfq]
    ring

theorem splitLines_cons_other (c : Char) (r : Str) (h1 : c ≠ '\r') (h2 : c ≠ '\n') :
    splitLines (c :: r) = match splitLines r with
      | [] => [[c]]
      | h :: t => (c :: h) :: t := by
  rcases r with _ | ⟨c2, r2⟩
  · simp [splitLines, h1, h2]
  · simp [splitLines, h1, h2]

theorem splitLines_append_line (a rest : Str)
    (ha : ∀ c ∈ a, c ≠ '\n' ∧ c ≠ '\r') :
    splitLines (a ++ '\n' :: rest) = a :: splitLines rest := by
  induction a with
  | nil =>
    rw [List.nil_append]
    simp [splitLines]
  | cons c a2 ih =>
    have hc := ha c (List.mem_cons_self c a2)
    rw [List.cons_append, splitLines_cons_other c _ hc.2 hc.1,
      ih (fun x hx => ha x (List.mem_cons_of_mem c hx))]

theorem splitLines_joinLines :
    ∀ (lines : List Str), (∀ l ∈ lines, ∀ c ∈ l, c ≠ '\n' ∧ c ≠ '\r') →
      lines ≠ [] → splitLines (joinLines lines) = lines ++ [[]] := by
  intro lines
  induction lines with
  | nil => intro _ hne; exact absurd rfl hne
  | cons l ls ih =>
    intro h _
    cases ls with
    | nil =>
      show splitLines (l ++ ['\n']) = [l, []]
      rw [show (['\n'] : Str) = '\n' :: [] from rfl,
        splitLines_append_line l [] (h l (List.mem_cons_self l []))]
      rfl
    | cons l2 ls2 =>
      show splitLines (l ++ '\n' :: joinLines (l2 :: ls2)) = (l :: l2 :: ls2) ++ [[]]
      rw [splitLines_append_line l _ (h l (List.mem_cons_self l _)),
        ih (fun x hx => h x (List.mem_cons_of_mem l hx)) (by simp)]
      rfl

theorem digitRange_not_nl {c : Char} (h : 48 ≤ c.toNat ∧ c.toNat ≤ 57) :
    c ≠ '\n' ∧ c ≠ '\r' := by
  constructor
  · intro he
    rw [he] at h
    exact absurd h (by decide)
  · intro he
    rw [he] at h
    exact absurd h (by decide)

theorem noNl_natToDigits (n : ℕ) : ∀ c ∈ natToDigits n, c ≠ '\n' ∧ c ≠ '\r' :=
  fun c hc => digitRange_not_nl (mem_natToDigits_digit n c hc)

theorem noNl_qDigits (n : ℕ) : ∀ c ∈ qDigits n, c ≠ '\n' ∧ c ≠ '\r' := by
  intro c hc
  rw [qDigits] at hc
  by_cases hf : n % 1000 = 0
  · rw [if_pos hf] at hc
    exact noNl_natToDigits _ c hc
  · rw [if_neg hf] at hc
    rcases List.mem_append.mp hc with hc | hc
    · exact noNl_natToDigits _ c hc
    · rcases List.mem_cons.mp hc with hc | hc
      · rw [hc]; decide
      · obtain ⟨k, hdec⟩ := dropTrailingZeros_decomp (threeDigits (n % 1000))
        have hmem : c ∈ threeDigits (n % 1000) := by
          rw [hdec]
          exact List.mem_append_left _ hc
        exact digitRange_not_nl
          (mem_threeDigits_digit _ (Nat.mod_lt _ (by decide)) c hmem)

theorem noNl_qToStr (q : ℚ) : ∀ c ∈ qToStr q, c ≠ '\n' ∧ c ≠ '\r' := by
  intro c hc
  rw [qToStr] at hc
  by_cases hn : Int.floor (q * 1000) < 0
  · rw [if_pos hn] at hc
    rcases List.mem_cons.mp hc with hc | hc
    · rw [hc]; decide
    · exact noNl_qDigits _ c hc
  · rw [if_neg hn] at hc
    exact noNl_qDigits _ c hc

theorem plainYaml_not_nl {c : Char} (h : isPlainYamlChar c = true) :
    c ≠ '\n' ∧ c ≠ '\r' := by
  rw [isPlainYamlChar] at h
  simp only [Bool.or_eq_true, Bool.and_eq_true, decide_eq_true_eq,
    beq_iff_eq] at h
  constructor
  · intro he; rw [he] at h; revert h; decide
  · intro he; rw [he] at h; revert h; decide

theorem mem_jsonEscapeChar_not_nl (c x : Char) (hx : x ∈ jsonEscapeChar c) :
    x ≠ '\n' ∧ x ≠ '\r' := by
  rw [jsonEscapeChar] at hx
  split_ifs at hx with h1 h2 h3 h4 h5
  · rcases List.mem_cons.mp hx with hx | hx
    · rw [hx]; decide
    · simp at hx; rw [hx]; decide
  · rcases List.mem_cons.mp hx with hx | hx
    · rw [hx]; decide
    · simp at hx; rw [hx]; decide
  · rcases List.mem_cons.mp hx with hx | hx
    · rw [hx]; decide
    · simp at hx; rw [hx]; decide
  · rcases List.mem_cons.mp hx with hx | hx
    · rw [hx]; decide
    · simp at hx; rw [hx]; decide
  · rcases List.mem_cons.mp hx with hx | hx
    · rw [hx]; decide
    · simp at hx; rw [hx]; decide
  · simp only [List.mem_singleton] at hx
    rw [hx]
    exact ⟨h3, h4⟩

theorem noNl_yamlString (s : Str) : ∀ c ∈ yamlString s, c ≠ '\n' ∧ c ≠ '\r' := by
  intro c hc
  rw [yamlString] at hc
  split_ifs at hc with hp
  · have hall := hp.2
    rw [List.all_eq_true] at hall
    exact plainYaml_not_nl (hall c hc)
  · rw [jsonStringify] at hc
    rcases List.mem_cons.mp hc with hc | hc
    · rw [hc]; decide
    · rcases List.mem_append.mp hc with hc | hc
      · obtain ⟨piece, hpiece, hcp⟩ := List.mem_flatten.mp hc
        obtain ⟨ch, _, hch⟩ := List.mem_map.mp hpiece
        rw [← hch] at hcp
        exact mem_jsonEscapeChar_not_nl ch c hcp
      · simp only [List.mem_singleton] at hc
        rw [hc]; decide

theorem noNl_append (lit val : Str) (h1 : ∀ c ∈ lit, c ≠ '\n' ∧ c ≠ '\r')
    (h2 : ∀ c ∈ val, c ≠ '\n' ∧ c ≠ '\r') :
    ∀ ch ∈ lit ++ val, ch ≠ '\n' ∧ ch ≠ '\r' := by
  intro ch hch
  rcases List.mem_append.mp hch with h | h
  · exact h1 ch h
  · exact h2 ch h

theorem noNl_clipLines (c : ClipMetadataEntry) :
    ∀ l ∈ clipLines c, ∀ ch ∈ l, ch ≠ '\n' ∧ ch ≠ '\r' := by
  intro l hl
  rw [clipLines] at hl
  rcases List.mem_append.mp hl with hl | hl
  · rcases List.mem_append.mp hl with hl | hl
    · rcases List.mem_append.mp hl with hl | hl
      · simp only [List.mem_cons, List.not_mem_nil, or_false] at hl
        rcases hl with hl | hl | hl | hl | hl | hl
        · subst hl; exact noNl_append _ _ (by decide) (noNl_yamlString c.file)
        · subst hl; exact noNl_append _ _ (by decide) (noNl_yamlString c.video)
        · subst hl; exact noNl_append _ _ (by decide) (noNl_yamlString c.subtitle)
        · subst hl; exact noNl_append _ _ (by decide) (noNl_qToStr c.start)
        · subst hl; exact noNl_append _ _ (by decide) (noNl_qToStr c.endVal)
        · subst hl
          exact noNl_append _ _ (by decide) (noNl_natToDigits c.processing_ms)
      · rcases hco : c.cover_image with _ | ci <;> rw [hco] at hl <;> simp only [] at hl
        · cases hl
        · by_cases hv : ci = []
          · rw [if_pos hv] at hl; cases hl
          · rw [if_neg hv] at hl
            simp only [List.mem_singleton] at hl
            subst hl
            exact noNl_append _ _ (by decide) (noNl_yamlString ci)
    · rcases hsu : c.summary with _ | su <;> rw [hsu] at hl <;> simp only [] at hl
      · cases hl
      · by_cases hv : su = []
        · rw [if_pos hv] at hl; cases hl
        · rw [if_neg hv] at hl
          simp only [List.mem_singleton] at hl
          subst hl
          exact noNl_append _ _ (by decide) (noNl_yamlString su)
  · rcases hctx : c.summary_context with _ | ctx <;> rw [hctx] at hl <;> simp only [] at hl
    · cases hl
    · by_cases hv : ctx = []
      · rw [if_pos hv] at hl; cases hl
      · rw [if_neg hv] at hl
        rcases List.mem_cons.mp hl with hl | hl
        · subst hl; intro ch hch; revert hch; revert ch; decide
        · obtain ⟨x, _, hx⟩ := List.mem_map.mp hl
          subst hx
          exact noNl_append _ _ (by decide) (noNl_yamlString x)

theorem noNl_metadataLines (m : ClipRunMetadata)
    (hs : m.schema = "clip_run.v1".toList) :
    ∀ l ∈ metadataLines m, ∀ ch ∈ l, ch ≠ '\n' ∧ ch ≠ '\r' := by
  intro l hl
  rw [metadataLines] at hl
  rcases List.mem_append.mp hl with hl | hl
  · rcases List.mem_append.mp hl with hl | hl
    · rcases List.mem_append.mp hl with hl | hl
      · simp only [List.mem_cons, List.not_mem_nil, or_false] at hl
        rcases hl with hl | hl | hl | hl | hl | hl | hl
        · subst hl; rw [hs]; intro ch hch; revert hch; revert ch; decide
        · subst hl; exact noNl_append _ _ (by decide) (noNl_yamlString m.query)
        · subst hl
          exact noNl_append _ _ (by decide) (noNl_natToDigits m.buffer_ms)
        · subst hl
          exact noNl_append _ _ (by decide) (noNl_yamlString m.generated_at)
        · subst hl
          exact noNl_append _ _ (by decide) (noNl_yamlString m.ffmpeg_path)
        · subst hl
          cases m.mode <;> (intro ch hch; revert hch; revert ch; decide)
        · subst hl
          cases m.container <;> (intro ch hch; revert hch; revert ch; decide)
      · rcases hhw : m.hw_accel with _ | hw <;> rw [hhw] at hl <;> simp only [] at hl
        · cases hl
        · simp only [List.mem_singleton] at hl
          subst hl
          cases hw
          intro ch hch; revert hch; revert ch; decide
    · simp only [List.mem_cons, List.not_mem_nil, or_false] at hl
      rcases hl with hl | hl | hl
      · subst hl
        exact noNl_append _ _ (by decide) (noNl_yamlString m.run_directory)
      · subst hl
        exact noNl_append _ _ (by decide) (noNl_natToDigits m.total_clips)
      · subst hl; intro ch hch; revert hch; revert ch; decide
  · obtain ⟨ls, hls, hlmem⟩ := List.mem_flatten.mp hl
    obtain ⟨c, _, hc⟩ := List.mem_map.mp hls
    subst hc
    exact noNl_clipLines c l hlmem






/-! ## Lemmas about the yaml model's scalar layer -/

theorem keyValSplit_sep (key val : Str) (hk : ∀ c ∈ key, c ≠ ':') :
    keyValSplit (key ++ ':' :: ' ' :: val) = some (key, val) := by
  induction key with
  | nil =>
    show keyValSplit (':' :: ' ' :: val) = some ([], val)
    rw [keyValSplit.eq_def]
    simp only []
    simp only [if_true]
  | cons c ks ih =>
    have hc : c ≠ ':' := hk c (List.mem_cons_self c ks)
    rw [List.cons_append, keyValSplit.eq_def]
    simp only []
    rw [if_neg hc, ih (fun x hx => hk x (List.mem_cons_of_mem c hx))]
    rfl

theorem keyValSplit_colon_end (key : Str) (hk : ∀ c ∈ key, c ≠ ':') :
    keyValSplit (key ++ [':']) = some (key, []) := by
  induction key with
  | nil =>
    show keyValSplit [':'] = some ([], [])
    rw [keyValSplit.eq_def]
    simp only []
    simp only [if_true]
  | cons c ks ih =>
    have hc : c ≠ ':' := hk c (List.mem_cons_self c ks)
    rw [List.cons_append, keyValSplit.eq_def]
    simp only []
    rw [if_neg hc, ih (fun x hx => hk x (List.mem_cons_of_mem c hx))]
    rfl

theorem keyValSplit_none (s : Str) (hs : ∀ c ∈ s, c ≠ ':') :
    keyValSplit s = none := by
  induction s with
  | nil => rfl
  | cons c cs ih =>
    have hc : c ≠ ':' := hs c (List.mem_cons_self c cs)
    rw [keyValSplit.eq_def]
    simp only []
    rw [if_neg hc, ih (fun x hx => hs x (List.mem_cons_of_mem c hx))]
    rfl

theorem unq_escape (s : Str) : ∀ r : Str,
    unq ((s.map jsonEscapeChar).flatten ++ '"' :: r) = some (s, r) := by
  induction s with
  | nil =>
    intro r
    show unq ('"' :: r) = some ([], r)
    rw [unq.eq_def]
    simp only []
    simp only [if_true]
  | cons c cs ih =>
    intro r
    rw [List.map_cons, List.flatten_cons, List.append_assoc]
    have hesc : ∀ (e d : Char), jsonEscapeChar c = ['\\', e] → escChar e = some c →
        unq (jsonEscapeChar c ++ ((cs.map jsonEscapeChar).flatten ++ '"' :: r)) =
          some (c :: cs, r) := by
      intro e d hje hed
      rw [hje]
      show unq ('\\' :: e :: ((cs.map jsonEscapeChar).flatten ++ '"' :: r)) = _
      rw [unq.eq_def]
      simp only []
      rw [if_neg (by decide : ¬('\\' : Char) = '"')]
      simp only [if_true]
      rw [hed]
      simp only []
      rw [ih r]
      rfl
    by_cases h1 : c = '"'
    · subst h1
      exact hesc '"' '"' (by rw [jsonEscapeChar]; simp) rfl
    · by_cases h2 : c = '\\'
      · subst h2
        exact hesc '\\' '\\' (by rw [jsonEscapeChar]; simp) rfl
      · by_cases h3 : c = '\n'
        · subst h3
          exact hesc 'n' 'n' (by rw [jsonEscapeChar]; simp) rfl
        · by_cases h4 : c = '\r'
          · subst h4
            exact hesc 'r' 'r' (by rw [jsonEscapeChar]; simp) rfl
          · by_cases h5 : c = '\t'
            · subst h5
              exact hesc 't' 't' (by rw [jsonEscapeChar]; simp) rfl
            · rw [jsonEscapeChar, if_neg h1, if_neg h2, if_neg h3, if_neg h4,
                if_neg h5]
              show unq (c :: ((cs.map jsonEscapeChar).flatten ++ '"' :: r)) = _
              rw [unq.eq_def]
              simp only []
              rw [if_neg h1, if_neg h2, ih r]
              rfl

theorem resolveScalar_some (s : Str) (hq : s.head? ≠ some '"') :
    ∃ w, resolveScalar s = some w := by
  rw [resolveScalar, if_neg hq]
  split_ifs
  · exact ⟨YamlVal.null, rfl⟩
  · exact ⟨YamlVal.null, rfl⟩
  · exact ⟨YamlVal.bool true, rfl⟩
  · exact ⟨YamlVal.bool false, rfl⟩
  · rcases hps : parseNumScalar s with _ | q
    · exact ⟨YamlVal.str s, rfl⟩
    · exact ⟨YamlVal.num q, rfl⟩

theorem headDigit_ne_lit (c : Char) (cs : Str)
    (hc : 48 ≤ c.toNat ∧ c.toNat ≤ 57) :
    (c :: cs : Str).head? ≠ some '"' ∧ (c :: cs : Str) ≠ "null".toList ∧
    (c :: cs : Str) ≠ "~".toList ∧ (c :: cs : Str) ≠ "true".toList ∧
    (c :: cs : Str) ≠ "false".toList ∧ (c :: cs : Str).head? ≠ some '-' := by
  refine ⟨?_, ?_, ?_, ?_, ?_, ?_⟩
  · intro h
    rw [List.head?_cons, Option.some.injEq] at h
    subst h
    exact absurd hc.1 (by decide)
  · intro h
    rw [show "null".toList = 'n' :: "ull".toList from rfl] at h
    injection h with h1 _
    subst h1
    exact absurd hc.2 (by decide)
  · intro h
    rw [show "~".toList = '~' :: ([] : Str) from rfl] at h
    injection h with h1 _
    subst h1
    exact absurd hc.2 (by decide)
  · intro h
    rw [show "true".toList = 't' :: "rue".toList from rfl] at h
    injection h with h1 _
    subst h1
    exact absurd hc.2 (by decide)
  · intro h
    rw [show "false".toList = 'f' :: "alse".toList from rfl] at h
    injection h with h1 _
    subst h1
    exact absurd hc.2 (by decide)
  · intro h
    rw [List.head?_cons, Option.some.injEq] at h
    subst h
    exact absurd hc.1 (by decide)

theorem resolveScalar_num_of_headDigit (d : Char) (t : Str)
    (hd : 48 ≤ d.toNat ∧ d.toNat ≤ 57) (q : ℚ)
    (hq : parseQStr (d :: t) = some q) :
    resolveScalar (d :: t) = some (YamlVal.num q) := by
  obtain ⟨h1, h2, h3, h4, h5, h6⟩ := headDigit_ne_lit d t hd
  rw [resolveScalar, if_neg h1, if_neg h2, if_neg h3, if_neg h4, if_neg h5,
    parseNumScalar, if_neg h6, hq]

theorem parseQStr_natToDigits (n : ℕ) :
    parseQStr (natToDigits n) = some ((n : ℚ)) := by
  rw [parseQStr]
  have hall : ∀ x ∈ natToDigits n, (fun c => !(c == '.')) x = true := by
    intro x hx
    have hx2 := mem_natToDigits_digit n x hx
    simpa using digit_beq_dot_false x hx2
  obtain ⟨-, hdrp⟩ := takeWhile_all _ _ hall
  rw [hdrp]
  simp only []
  rw [parseNatStr_natToDigits]

theorem exists_head_digit (s : Str) (hne : s ≠ [])
    (hd : ∀ c ∈ s, 48 ≤ c.toNat ∧ c.toNat ≤ 57) :
    ∃ d t, s = d :: t ∧ 48 ≤ d.toNat ∧ d.toNat ≤ 57 := by
  cases s with
  | nil => exact absurd rfl hne
  | cons c cs =>
    exact ⟨c, cs, rfl, hd c (List.mem_cons_self c cs)⟩

theorem resolveScalar_natToDigits (n : ℕ) :
    resolveScalar (natToDigits n) = some (YamlVal.num ((n : ℚ))) := by
  obtain ⟨d, t, hdt, hd⟩ := exists_head_digit (natToDigits n)
    (natToDigits_ne_nil n) (mem_natToDigits_digit n)
  rw [hdt]
  refine resolveScalar_num_of_headDigit d t hd _ ?_
  rw [← hdt, parseQStr_natToDigits]


theorem qToStr_eq_qDigits (q : ℚ) (h0 : 0 ≤ q) :
    qToStr q = qDigits (Int.floor (q * 1000)).toNat := by
  rw [qToStr]
  rw [if_neg (not_lt.mpr (Int.floor_nonneg.mpr (by positivity)))]

theorem qDigits_head (m : ℕ) :
    ∃ d t, qDigits m = d :: t ∧ 48 ≤ d.toNat ∧ d.toNat ≤ 57 := by
  rw [qDigits]
  obtain ⟨d, t, hdt, hd⟩ := exists_head_digit (natToDigits (m / 1000))
    (natToDigits_ne_nil _) (mem_natToDigits_digit _)
  split_ifs
  · exact ⟨d, t, hdt, hd⟩
  · refine ⟨d, t ++ '.' :: dropTrailingZeros (threeDigits (m % 1000)), ?_, hd⟩
    rw [hdt]
    rfl

theorem resolveScalar_qToStr (q : ℚ) (h0 : 0 ≤ q) (hden : (q * 1000).den = 1) :
    resolveScalar (qToStr q) = some (YamlVal.num q) := by
  have hq := parseQStr_qToStr q h0 hden
  have he : qToStr q = qDigits (Int.floor (q * 1000)).toNat := qToStr_eq_qDigits q h0
  obtain ⟨d, t, hdt, hd⟩ := qDigits_head (Int.floor (q * 1000)).toNat
  rw [he, hdt]
  refine resolveScalar_num_of_headDigit d t hd q ?_
  rw [← hdt, ← he, hq]

theorem resolveScalar_yamlString (v : Str) :
    ∃ w, resolveScalar (yamlString v) = some w := by
  rw [yamlString]
  split_ifs with hp
  · obtain ⟨hne, hall⟩ := hp
    apply resolveScalar_some
    cases v with
    | nil => exact absurd rfl hne
    | cons c cs =>
      have hc : isPlainYamlChar c = true := by
        rw [List.all_eq_true] at hall
        exact hall c (List.mem_cons_self c cs)
      intro h
      rw [List.head?_cons, Option.some.injEq] at h
      subst h
      exact absurd hc (by decide)
  · refine ⟨YamlVal.str v, ?_⟩
    have hh : (('"' :: ((v.map jsonEscapeChar).flatten ++ ['"'])) : Str).head? =
        some '"' := rfl
    rw [jsonStringify, List.cons_append, resolveScalar, if_pos hh]
    rw [show (('"' :: ((v.map jsonEscapeChar).flatten ++ ['"'])).drop 1) =
      (v.map jsonEscapeChar).flatten ++ '"' :: [] from rfl]
    rw [unq_escape]
    simp only []
    simp only [if_true]

/-! ## Line-shape lemmas for the block parser -/

theorem indentOf_replicate_head (i : ℕ) (c : Char) (hc : (c == ' ') = false)
    (b : Str) : indentOf (List.replicate i ' ' ++ c :: b) = i := by
  rw [indentOf,
    (takeWhile_append_stop (fun x => x == ' ') (List.replicate i ' ')
      (fun x hx => by rw [List.eq_of_mem_replicate hx]; rfl) c hc b).1,
    List.length_replicate]

theorem indentOf_head (c : Char) (hc : (c == ' ') = false) (b : Str) :
    indentOf (c :: b) = 0 :=
  indentOf_replicate_head 0 c hc b

theorem drop_replicate (i : ℕ) (b : Str) :
    (List.replicate i ' ' ++ b).drop i = b := by
  have h := List.drop_left (List.replicate i ' ') b
  rwa [List.length_replicate] at h

theorem drop_replicate_add (k : ℕ) (b : Str) : ∀ i : ℕ,
    (List.replicate i ' ' ++ b).drop (i + k) = b.drop k := by
  intro i
  induction i with
  | zero => simp
  | succ n ih =>
    rw [show n + 1 + k = (n + k) + 1 from by omega]
    rw [show List.replicate (n + 1) ' ' ++ b = ' ' :: (List.replicate n ' ' ++ b)
      from by rw [List.replicate_succ]; rfl]
    rw [List.drop_succ_cons]
    exact ih

/-! ## Step lemmas for the block parser -/

theorem mapGo_nil (f i : ℕ) (acc : List (Str × YamlVal)) :
    parseMapGo (f + 1) i [] acc = some (acc, []) := rfl

theorem mapGo_stop (f i : ℕ) (L : Str) (rest : List Str)
    (acc : List (Str × YamlVal)) (hind : indentOf L < i) :
    parseMapGo (f + 1) i (L :: rest) acc = some (acc, L :: rest) := by
  rw [parseMapGo.eq_def]
  simp only []
  rw [if_pos hind]

theorem mapGo_scalar_step (f i : ℕ) (L key val : Str) (rest : List Str)
    (acc : List (Str × YamlVal)) (w : YamlVal)
    (hind : indentOf L = i) (hbody : L.drop i = key ++ ':' :: ' ' :: val)
    (hkey : ∀ c ∈ key, c ≠ ':') (hval : val ≠ [])
    (hw : resolveScalar val = some w) :
    parseMapGo (f + 1) i (L :: rest) acc =
      parseMapGo f i rest (acc ++ [(key, w)]) := by
  rw [parseMapGo.eq_def]
  simp only []
  rw [hind, if_neg (lt_irrefl i), if_neg (lt_irrefl i), hbody,
    keyValSplit_sep key val hkey]
  simp only []
  rw [if_neg hval, hw]

theorem mapGo_null_step (f i : ℕ) (L key : Str) (l2 : Str) (rest2 : List Str)
    (acc : List (Str × YamlVal))
    (hind : indentOf L = i) (hbody : L.drop i = key ++ [':'])
    (hkey : ∀ c ∈ key, c ≠ ':') (hle : indentOf l2 ≤ i) :
    parseMapGo (f + 1) i (L :: l2 :: rest2) acc =
      parseMapGo f i (l2 :: rest2) (acc ++ [(key, YamlVal.null)]) := by
  rw [parseMapGo.eq_def]
  simp only []
  rw [hind, if_neg (lt_irrefl i), if_neg (lt_irrefl i), hbody,
    keyValSplit_colon_end key hkey]
  simp only []
  simp only [if_true]
  rw [if_pos hle]

theorem mapGo_null_last (f i : ℕ) (L key : Str)
    (acc : List (Str × YamlVal))
    (hind : indentOf L = i) (hbody : L.drop i = key ++ [':'])
    (hkey : ∀ c ∈ key, c ≠ ':') :
    parseMapGo (f + 1) i [L] acc = some (acc ++ [(key, YamlVal.null)], []) := by
  rw [parseMapGo.eq_def]
  simp only []
  rw [hind, if_neg (lt_irrefl i), if_neg (lt_irrefl i), hbody,
    keyValSplit_colon_end key hkey]
  simp only []
  simp only [if_true]

theorem mapGo_nested_seq_step (f i : ℕ) (L key : Str) (l2 : Str)
    (rest2 : List Str) (acc : List (Str × YamlVal)) (items : List YamlVal)
    (rest3 : List Str)
    (hind : indentOf L = i) (hbody : L.drop i = key ++ [':'])
    (hkey : ∀ c ∈ key, c ≠ ':') (hi2 : i < indentOf l2)
    (hdash : (l2.drop (indentOf l2)).head? = some '-')
    (hseq : parseSeqGo f (indentOf l2) (l2 :: rest2) [] = some (items, rest3)) :
    parseMapGo (f + 1) i (L :: l2 :: rest2) acc =
      parseMapGo f i rest3 (acc ++ [(key, YamlVal.seq items)]) := by
  rw [parseMapGo.eq_def]
  simp only []
  rw [hind, if_neg (lt_irrefl i), if_neg (lt_irrefl i), hbody,
    keyValSplit_colon_end key hkey]
  simp only []
  simp only [if_true]
  rw [if_neg (not_le.mpr hi2), if_pos hdash, hseq]

theorem seqGo_nil (f i : ℕ) (acc : List YamlVal) :
    parseSeqGo (f + 1) i [] acc = some (acc, []) := rfl

theorem seqGo_stop (f i : ℕ) (L : Str) (rest : List Str) (acc : List YamlVal)
    (hind : indentOf L < i) :
    parseSeqGo (f + 1) i (L :: rest) acc = some (acc, L :: rest) := by
  rw [parseSeqGo.eq_def]
  simp only []
  rw [if_pos hind]

theorem seqGo_dash_step (f i : ℕ) (item : Str) (rest : List Str)
    (acc : List YamlVal) :
    parseSeqGo (f + 1) i ((List.replicate i ' ' ++ '-' :: ' ' :: item) :: rest)
      acc = parseSeqItem f i item rest acc := by
  have hind : indentOf (List.replicate i ' ' ++ '-' :: ' ' :: item) = i :=
    indentOf_replicate_head i '-' (by decide) _
  have hd0 : (List.replicate i ' ' ++ '-' :: ' ' :: item).drop i =
      '-' :: ' ' :: item := drop_replicate i _
  have hd1 : (List.replicate i ' ' ++ '-' :: ' ' :: item).drop (i + 1) =
      ' ' :: item := by
    rw [drop_replicate_add 1 ('-' :: ' ' :: item) i]
    rfl
  have hd2 : (List.replicate i ' ' ++ '-' :: ' ' :: item).drop (i + 2) =
      item := by
    rw [drop_replicate_add 2 ('-' :: ' ' :: item) i]
    rfl
  rw [parseSeqGo.eq_def]
  simp only []
  rw [hind, if_neg (lt_irrefl i), if_neg (lt_irrefl i), hd0, hd1, hd2]
  rw [if_pos (show (('-' :: ' ' :: item : Str)).head? = some '-' from rfl),
    if_neg (List.cons_ne_nil ' ' item),
    if_pos (show ((' ' :: item : Str)).head? = some ' ' from rfl)]

theorem seqItem_quoted (f i : ℕ) (content : Str) (rest : List Str)
    (acc : List YamlVal) :
    parseSeqItem (f + 1) i
      ('"' :: ((content.map jsonEscapeChar).flatten ++ ['"'])) rest acc =
      parseSeqGo f i rest (acc ++ [YamlVal.str content]) := by
  rw [parseSeqItem.eq_def]
  simp only []
  rw [if_pos (show (('"' :: ((content.map jsonEscapeChar).flatten ++ ['"'])) :
    Str).head? = some '"' from rfl)]
  rw [show (('"' :: ((content.map jsonEscapeChar).flatten ++ ['"'])).drop 1) =
    (content.map jsonEscapeChar).flatten ++ '"' :: [] from rfl]
  rw [unq_escape]
  simp only []
  simp only [if_true]

theorem seqItem_compact (f i : ℕ) (item : Str) (p : Str × Str)
    (rest : List Str) (acc : List YamlVal) (entries : List (Str × YamlVal))
    (rest2 : List Str)
    (hq : item.head? ≠ some '"') (hkv : keyValSplit item = some p)
    (hmap : parseMapGo f (i + 2)
      ((List.replicate (i + 2) ' ' ++ item) :: rest) [] = some (entries, rest2)) :
    parseSeqItem (f + 1) i item rest acc =
      parseSeqGo f i rest2 (acc ++ [YamlVal.map entries]) := by
  rw [parseSeqItem.eq_def]
  simp only []
  rw [if_neg hq, hkv]
  simp only []
  rw [hmap]

theorem seqItem_scalar (f i : ℕ) (item : Str) (rest : List Str)
    (acc : List YamlVal) (w : YamlVal)
    (hq : item.head? ≠ some '"') (hkv : keyValSplit item = none)
    (hw : resolveScalar item = some w) :
    parseSeqItem (f + 1) i item rest acc =
      parseSeqGo f i rest (acc ++ [w]) := by
  rw [parseSeqItem.eq_def]
  simp only []
  rw [if_neg hq, hkv]
  simp only []
  rw [hw]


/-! ## Composite step lemmas and line shapes -/

theorem mapGo_stop_dedent (f i : ℕ) (rest : List Str)
    (acc : List (Str × YamlVal))
    (h : rest = [] ∨ ∃ l rs, rest = l :: rs ∧ indentOf l < i) :
    parseMapGo (f + 1) i rest acc = some (acc, rest) := by
  rcases h with rfl | ⟨l, rs, rfl, hl⟩
  · exact mapGo_nil f i acc
  · exact mapGo_stop f i l rs acc hl

theorem seqGo_stop_dedent (f i : ℕ) (rest : List Str) (acc : List YamlVal)
    (h : rest = [] ∨ ∃ l rs, rest = l :: rs ∧ indentOf l < i) :
    parseSeqGo (f + 1) i rest acc = some (acc, rest) := by
  rcases h with rfl | ⟨l, rs, rfl, hl⟩
  · exact seqGo_nil f i acc
  · exact seqGo_stop f i l rs acc hl

theorem line_decomp (i : ℕ) (lit key v : Str)
    (h : lit = List.replicate i ' ' ++ (key ++ [':', ' '])) :
    lit ++ v = List.replicate i ' ' ++ (key ++ ':' :: ' ' :: v) := by
  subst h
  rw [List.append_assoc, List.append_assoc]
  rfl

theorem indentOf_key_line (i : ℕ) (key v : Str) (c : Char) (ks : Str)
    (hk : key = c :: ks) (hc : (c == ' ') = false) :
    indentOf (List.replicate i ' ' ++ (key ++ ':' :: ' ' :: v)) = i := by
  subst hk
  rw [List.cons_append]
  exact indentOf_replicate_head i c hc _

theorem mapGo_lit_step (f i : ℕ) (lit key v : Str) (rest : List Str)
    (acc : List (Str × YamlVal)) (w : YamlVal) (c : Char) (ks : Str)
    (hlit : lit = List.replicate i ' ' ++ (key ++ [':', ' ']))
    (hk : key = c :: ks) (hc : (c == ' ') = false)
    (hkey : ∀ x ∈ key, x ≠ ':')
    (hv : v ≠ []) (hw : resolveScalar v = some w) :
    parseMapGo (f + 1) i ((lit ++ v) :: rest) acc =
      parseMapGo f i rest (acc ++ [(key, w)]) := by
  rw [line_decomp i lit key v hlit]
  exact mapGo_scalar_step f i _ key v rest acc w
    (indentOf_key_line i key v c ks hk hc) (drop_replicate i _) hkey hv hw

theorem plain_no_colon (v : Str) (hall : v.all isPlainYamlChar = true) :
    ∀ c ∈ v, c ≠ ':' := by
  intro c hc h
  rw [List.all_eq_true] at hall
  have hp := hall c hc
  subst h
  exact absurd hp (by decide)

theorem plain_head_ne_quote (v : Str) (hne : v ≠ [])
    (hall : v.all isPlainYamlChar = true) : v.head? ≠ some '"' := by
  cases v with
  | nil => exact absurd rfl hne
  | cons c cs =>
    have hc : isPlainYamlChar c = true := by
      rw [List.all_eq_true] at hall
      exact hall c (List.mem_cons_self c cs)
    intro h
    rw [List.head?_cons, Option.some.injEq] at h
    subst h
    exact absurd hc (by decide)

theorem seqItem_yamlString (f i : ℕ) (v : Str) (rest : List Str)
    (acc : List YamlVal) :
    ∃ w, parseSeqItem (f + 1) i (yamlString v) rest acc =
      parseSeqGo f i rest (acc ++ [w]) := by
  rw [yamlString]
  split_ifs with hp
  · obtain ⟨hne, hall⟩ := hp
    have hq : (v : Str).head? ≠ some '"' := plain_head_ne_quote v hne hall
    obtain ⟨w, hw⟩ := resolveScalar_some v hq
    exact ⟨w, seqItem_scalar f i v rest acc w hq
      (keyValSplit_none v (plain_no_colon v hall)) hw⟩
  · refine ⟨YamlVal.str v, ?_⟩
    rw [jsonStringify, List.cons_append]
    exact seqItem_quoted f i v rest acc

theorem yamlString_ne_nil (v : Str) : yamlString v ≠ [] := by
  rw [yamlString]
  split_ifs with hp
  · exact hp.1
  · rw [jsonStringify, List.cons_append]
    exact List.cons_ne_nil _ _

theorem qToStr_ne_nil (q : ℚ) (h0 : 0 ≤ q) : qToStr q ≠ [] := by
  rw [qToStr_eq_qDigits q h0]
  obtain ⟨d, t, hdt, -⟩ := qDigits_head (Int.floor (q * 1000)).toNat
  rw [hdt]
  exact List.cons_ne_nil _ _

theorem resolveScalar_modeStr (md : ClipMode) :
    resolveScalar (modeStr md) = some (YamlVal.str (modeStr md)) := by
  rcases md <;> rfl

theorem modeStr_ne_nil (md : ClipMode) : modeStr md ≠ [] := by
  rcases md <;> decide

theorem resolveScalar_containerStr (cf : ContainerFormat) :
    resolveScalar (containerStr cf) = some (YamlVal.str (containerStr cf)) := by
  rcases cf <;> rfl

theorem containerStr_ne_nil (cf : ContainerFormat) : containerStr cf ≠ [] := by
  rcases cf <;> decide

theorem resolveScalar_hwStr (h : HardwareAccel) :
    resolveScalar (hwStr h) = some (YamlVal.str (hwStr h)) := by
  rcases h
  rfl

theorem hwStr_ne_nil (h : HardwareAccel) : hwStr h ≠ [] := by
  rcases h
  decide

theorem resolveScalar_schema :
    resolveScalar "clip_run.v1".toList = some (YamlVal.str "clip_run.v1".toList) :=
  rfl

theorem lookupYaml_cons_eq (k : Str) (v : YamlVal)
    (rest : List (Str × YamlVal)) : lookupYaml k ((k, v) :: rest) = some v := by
  rw [lookupYaml.eq_def]
  simp only []
  simp only [if_true]

theorem lookupYaml_cons_ne (k k0 : Str) (v : YamlVal)
    (rest : List (Str × YamlVal)) (h : k0 ≠ k) :
    lookupYaml k ((k0, v) :: rest) = lookupYaml k rest := by
  rw [lookupYaml.eq_def]
  simp only []
  rw [if_neg h]

theorem lookupYaml_append_left (k : Str) (v : YamlVal) :
    ∀ (es1 es2 : List (Str × YamlVal)), lookupYaml k es1 = some v →
    lookupYaml k (es1 ++ es2) = some v := by
  intro es1
  induction es1 with
  | nil => intro es2 h; exact absurd h (by rw [lookupYaml]; simp)
  | cons e rest ih =>
    intro es2 h
    by_cases he : e.1 = k
    · rw [show e = (e.1, e.2) from rfl] at h ⊢
      rw [he] at h ⊢
      rw [lookupYaml_cons_eq] at h
      rw [List.cons_append, lookupYaml_cons_eq]
      exact h
    · rw [show e = (e.1, e.2) from rfl] at h ⊢
      rw [lookupYaml_cons_ne _ _ _ _ he] at h
      rw [List.cons_append, lookupYaml_cons_ne _ _ _ _ he]
      exact ih es2 h

theorem clipNums_map (entries : List (Str × YamlVal)) (a b p : ℚ)
    (h1 : lookupYaml "start".toList entries = some (YamlVal.num a))
    (h2 : lookupYaml "end".toList entries = some (YamlVal.num b))
    (h3 : lookupYaml "processing_ms".toList entries = some (YamlVal.num p)) :
    clipNums (YamlVal.map entries) = some (a, b, p) := by
  rw [clipNums.eq_def]
  simp only []
  rw [h1, h2, h3]

theorem ctx_item_line_shape (v : Str) : "      - ".toList ++ yamlString v =
    List.replicate 6 ' ' ++ '-' :: ' ' :: yamlString v := by
  rw [show "      - ".toList = List.replicate 6 ' ' ++ ['-', ' '] from by decide,
    List.append_assoc]
  rfl

theorem ctx_item_indent (v : Str) :
    indentOf ("      - ".toList ++ yamlString v) = 6 := by
  rw [ctx_item_line_shape]
  exact indentOf_replicate_head 6 '-' (by decide) _

theorem ctx_item_dash (v : Str) :
    (("      - ".toList ++ yamlString v).drop 6).head? = some '-' := by
  rw [ctx_item_line_shape, drop_replicate]
  rfl

theorem clip_first_line_shape (v : Str) : "  - file: ".toList ++ v =
    List.replicate 2 ' ' ++ '-' :: ' ' :: ("file".toList ++ ':' :: ' ' :: v) := by
  rw [show "  - file: ".toList =
    List.replicate 2 ' ' ++ ('-' :: ' ' :: ("file".toList ++ [':', ' '])) from by
      decide, List.append_assoc]
  simp only [List.cons_append, List.append_assoc]
  rfl

theorem clip_first_line_indent (v : Str) :
    indentOf ("  - file: ".toList ++ v) = 2 := by
  rw [clip_first_line_shape]
  exact indentOf_replicate_head 2 '-' (by decide) _

theorem clip_first_line_dash (v : Str) :
    (("  - file: ".toList ++ v).drop 2).head? = some '-' := by
  rw [clip_first_line_shape, drop_replicate]
  rfl

theorem lit_append_ne_nil (lit v : Str) (h : lit ≠ []) : lit ++ v ≠ [] := by
  intro he
  exact h (List.append_eq_nil.mp he).1


/-! ## Parse traces over the serialized manifest -/

theorem clipLines_decomp (c : ClipMetadataEntry) :
    clipLines c =
      ["  - file: ".toList ++ yamlString c.file,
       "    video: ".toList ++ yamlString c.video,
       "    subtitle: ".toList ++ yamlString c.subtitle,
       "    start: ".toList ++ qToStr c.start,
       "    end: ".toList ++ qToStr c.endVal,
       "    processing_ms: ".toList ++ natToDigits c.processing_ms] ++
      covLines c ++ sumLines c ++ ctxLines c := by
  rw [clipLines, covLines, sumLines, ctxLines]

theorem clipLines_tail_shape (c : ClipMetadataEntry) (X : List Str) :
    clipLines c ++ X =
      ("  - file: ".toList ++ yamlString c.file) ::
      (("    video: ".toList ++ yamlString c.video) ::
       ("    subtitle: ".toList ++ yamlString c.subtitle) ::
       ("    start: ".toList ++ qToStr c.start) ::
       ("    end: ".toList ++ qToStr c.endVal) ::
       ("    processing_ms: ".toList ++ natToDigits c.processing_ms) ::
       (covLines c ++ (sumLines c ++ (ctxLines c ++ X)))) := by
  rw [clipLines_decomp]
  simp only [List.cons_append, List.nil_append, List.append_assoc]

theorem clipLines_length (c : ClipMetadataEntry) :
    (clipLines c).length =
      6 + ((covLines c).length + ((sumLines c).length + (ctxLines c).length)) := by
  rw [clipLines_decomp]
  simp [List.length_append]
  omega

theorem ctx_seq_trace : ∀ (ls : List Str) (f : ℕ) (acc : List YamlVal)
    (rest : List Str), 2 * ls.length + 1 ≤ f →
    (rest = [] ∨ ∃ l rs, rest = l :: rs ∧ indentOf l < 6) →
    ∃ items, parseSeqGo f 6
      (ls.map (fun l => "      - ".toList ++ yamlString l) ++ rest) acc =
      some (acc ++ items, rest) := by
  intro ls
  induction ls with
  | nil =>
    intro f acc rest hf hrest
    obtain ⟨f', rfl⟩ : ∃ f', f = f' + 1 := ⟨f - 1, by omega⟩
    refine ⟨[], ?_⟩
    rw [List.map_nil, List.nil_append, List.append_nil]
    exact seqGo_stop_dedent f' 6 rest acc hrest
  | cons l ls ih =>
    intro f acc rest hf hrest
    simp only [List.length_cons] at hf
    obtain ⟨f', rfl⟩ : ∃ f', f = f' + 2 := ⟨f - 2, by omega⟩
    rw [List.map_cons, List.cons_append, ctx_item_line_shape]
    rw [show f' + 2 = (f' + 1) + 1 from rfl]
    rw [seqGo_dash_step (f' + 1) 6 (yamlString l) _ acc]
    obtain ⟨w, hw⟩ := seqItem_yamlString f' 6 l
      (ls.map (fun x => "      - ".toList ++ yamlString x) ++ rest) acc
    rw [hw]
    obtain ⟨items, hit⟩ := ih f' (acc ++ [w]) rest (by omega) hrest
    refine ⟨w :: items, ?_⟩
    rw [hit, List.append_assoc]
    rfl

theorem ctxPart_trace (c : ClipMetadataEntry) (f : ℕ) (rest : List Str)
    (acc : List (Str × YamlVal))
    (hf : 2 * (ctxLines c).length + 2 ≤ f)
    (hrest : rest = [] ∨ ∃ l rs, rest = l :: rs ∧ indentOf l < 4) :
    ∃ extra, parseMapGo f 4 (ctxLines c ++ rest) acc =
      some (acc ++ extra, rest) := by
  have hrest6 : rest = [] ∨ ∃ l rs, rest = l :: rs ∧ indentOf l < 6 := by
    rcases hrest with h | ⟨l, rs, h, hl⟩
    · exact Or.inl h
    · exact Or.inr ⟨l, rs, h, by omega⟩
  rw [ctxLines]
  rcases hctx : c.summary_context with _ | ctxl
  · simp only []
    obtain ⟨f', rfl⟩ : ∃ f', f = f' + 1 := ⟨f - 1, by omega⟩
    refine ⟨[], ?_⟩
    rw [List.nil_append, List.append_nil]
    exact mapGo_stop_dedent f' 4 rest acc hrest
  · simp only []
    by_cases hv : ctxl = []
    · rw [if_pos hv]
      obtain ⟨f', rfl⟩ : ∃ f', f = f' + 1 := ⟨f - 1, by omega⟩
      refine ⟨[], ?_⟩
      rw [List.nil_append, List.append_nil]
      exact mapGo_stop_dedent f' 4 rest acc hrest
    · rw [if_neg hv]
      obtain ⟨x, xs, rfl⟩ : ∃ x xs, ctxl = x :: xs := by
        cases ctxl with
        | nil => exact absurd rfl hv
        | cons x xs => exact ⟨x, xs, rfl⟩
      have hlen : (ctxLines c).length = 2 + xs.length := by
        rw [ctxLines, hctx]
        simp only []
        rw [if_neg hv]
        simp
        omega
      obtain ⟨f', rfl⟩ : ∃ f', f = f' + 1 := ⟨f - 1, by omega⟩
      rw [List.map_cons, List.cons_append, List.cons_append]
      obtain ⟨items, hseq⟩ := ctx_seq_trace (x :: xs) f' [] rest
        (by rw [hlen] at hf; simp only [List.length_cons]; omega) hrest6
      rw [List.map_cons, List.cons_append] at hseq
      rw [mapGo_nested_seq_step f' 4 "    summary_context:".toList
        "summary_context".toList ("      - ".toList ++ yamlString x)
        (xs.map (fun l => "      - ".toList ++ yamlString l) ++ rest) acc
        ([] ++ items) rest (by decide) (by decide) (by decide)
        (by rw [ctx_item_indent]; omega)
        (by rw [ctx_item_indent]; exact ctx_item_dash x)
        (by rw [ctx_item_indent]; exact hseq)]
      obtain ⟨f'', rfl⟩ : ∃ f'', f' = f'' + 1 := by
        rw [hlen] at hf
        exact ⟨f' - 1, by omega⟩
      refine ⟨[("summary_context".toList, YamlVal.seq ([] ++ items))], ?_⟩
      exact mapGo_stop_dedent f'' 4 rest _ hrest

theorem sumPart_trace (c : ClipMetadataEntry) (f : ℕ) (rest : List Str)
    (acc : List (Str × YamlVal))
    (hf : 2 * (sumLines c).length + 2 * (ctxLines c).length + 2 ≤ f)
    (hrest : rest = [] ∨ ∃ l rs, rest = l :: rs ∧ indentOf l < 4) :
    ∃ extra, parseMapGo f 4 (sumLines c ++ (ctxLines c ++ rest)) acc =
      some (acc ++ extra, rest) := by
  rw [sumLines]
  rcases hsu : c.summary with _ | su
  · simp only []
    rw [List.nil_append]
    exact ctxPart_trace c f rest acc (by omega) hrest
  · simp only []
    by_cases hv : su = []
    · rw [if_pos hv, List.nil_append]
      exact ctxPart_trace c f rest acc (by omega) hrest
    · rw [if_neg hv]
      have hls : (sumLines c).length = 1 := by
        rw [sumLines, hsu]
        simp only []
        rw [if_neg hv]
        rfl
      obtain ⟨f', rfl⟩ : ∃ f', f = f' + 1 := ⟨f - 1, by omega⟩
      rw [List.singleton_append]
      obtain ⟨w, hw⟩ := resolveScalar_yamlString su
      rw [mapGo_lit_step f' 4 "    summary: ".toList "summary".toList
        (yamlString su) _ acc w 's' "ummary".toList (by decide) (by decide)
        (by decide) (by decide) (yamlString_ne_nil su) hw]
      obtain ⟨extra, hrec⟩ := ctxPart_trace c f' rest
        (acc ++ [("summary".toList, w)]) (by rw [hls] at hf; omega) hrest
      refine ⟨("summary".toList, w) :: extra, ?_⟩
      rw [hrec, List.append_assoc]
      rfl

theorem covPart_trace (c : ClipMetadataEntry) (f : ℕ) (rest : List Str)
    (acc : List (Str × YamlVal))
    (hf : 2 * (covLines c).length + 2 * (sumLines c).length +
      2 * (ctxLines c).length + 2 ≤ f)
    (hrest : rest = [] ∨ ∃ l rs, rest = l :: rs ∧ indentOf l < 4) :
    ∃ extra, parseMapGo f 4 (covLines c ++ (sumLines c ++ (ctxLines c ++ rest)))
      acc = some (acc ++ extra, rest) := by
  rw [covLines]
  rcases hco : c.cover_image with _ | ci
  · simp only []
    rw [List.nil_append]
    exact sumPart_trace c f rest acc (by omega) hrest
  · simp only []
    by_cases hv : ci = []
    · rw [if_pos hv, List.nil_append]
      exact sumPart_trace c f rest acc (by omega) hrest
    · rw [if_neg hv]
      have hls : (covLines c).length = 1 := by
        rw [covLines, hco]
        simp only []
        rw [if_neg hv]
        rfl
      obtain ⟨f', rfl⟩ : ∃ f', f = f' + 1 := ⟨f - 1, by omega⟩
      rw [List.singleton_append]
      obtain ⟨w, hw⟩ := resolveScalar_yamlString ci
      rw [mapGo_lit_step f' 4 "    cover_image: ".toList "cover_image".toList
        (yamlString ci) _ acc w 'c' "over_image".toList (by decide) (by decide)
        (by decide) (by decide) (yamlString_ne_nil ci) hw]
      obtain ⟨extra, hrec⟩ := sumPart_trace c f' rest
        (acc ++ [("cover_image".toList, w)]) (by rw [hls] at hf; omega) hrest
      refine ⟨("cover_image".toList, w) :: extra, ?_⟩
      rw [hrec, List.append_assoc]
      rfl


theorem clip_map_trace (c : ClipMetadataEntry) (hs : NumOk c.start)
    (he : NumOk c.endVal) (f : ℕ) (rest : List Str)
    (hf : 2 * (clipLines c).length + 2 ≤ f)
    (hrest : rest = [] ∨ ∃ l rs, rest = l :: rs ∧ indentOf l < 4) :
    ∃ entries, parseMapGo f 4
      ((List.replicate 4 ' ' ++
          ("file".toList ++ ':' :: ' ' :: yamlString c.file)) ::
       (("    video: ".toList ++ yamlString c.video) ::
        ("    subtitle: ".toList ++ yamlString c.subtitle) ::
        ("    start: ".toList ++ qToStr c.start) ::
        ("    end: ".toList ++ qToStr c.endVal) ::
        ("    processing_ms: ".toList ++ natToDigits c.processing_ms) ::
        (covLines c ++ (sumLines c ++ (ctxLines c ++ rest))))) [] =
      some (entries, rest) ∧
      lookupYaml "start".toList entries = some (YamlVal.num c.start) ∧
      lookupYaml "end".toList entries = some (YamlVal.num c.endVal) ∧
      lookupYaml "processing_ms".toList entries =
        some (YamlVal.num ((c.processing_ms : ℚ))) := by
  have hlen := clipLines_length c
  obtain ⟨f', rfl⟩ : ∃ f', f = f' + 6 := ⟨f - 6, by omega⟩
  obtain ⟨w1, hw1⟩ := resolveScalar_yamlString c.file
  obtain ⟨w2, hw2⟩ := resolveScalar_yamlString c.video
  obtain ⟨w3, hw3⟩ := resolveScalar_yamlString c.subtitle
  rw [show f' + 6 = (f' + 5) + 1 from rfl,
    mapGo_scalar_step (f' + 5) 4 _ "file".toList (yamlString c.file) _ [] w1
      (indentOf_key_line 4 "file".toList (yamlString c.file) 'f' "ile".toList
        (by decide) (by decide))
      (drop_replicate 4 _) (by decide) (yamlString_ne_nil c.file) hw1]
  rw [show f' + 5 = (f' + 4) + 1 from rfl,
    mapGo_lit_step (f' + 4) 4 "    video: ".toList "video".toList
      (yamlString c.video) _ _ w2 'v' "ideo".toList (by decide) (by decide)
      (by decide) (by decide) (yamlString_ne_nil c.video) hw2]
  rw [show f' + 4 = (f' + 3) + 1 from rfl,
    mapGo_lit_step (f' + 3) 4 "    subtitle: ".toList "subtitle".toList
      (yamlString c.subtitle) _ _ w3 's' "ubtitle".toList (by decide)
      (by decide) (by decide) (by decide) (yamlString_ne_nil c.subtitle) hw3]
  rw [show f' + 3 = (f' + 2) + 1 from rfl,
    mapGo_lit_step (f' + 2) 4 "    start: ".toList "start".toList
      (qToStr c.start) _ _ (YamlVal.num c.start) 's' "tart".toList (by decide)
      (by decide) (by decide) (by decide) (qToStr_ne_nil c.start hs.1)
      (resolveScalar_qToStr c.start hs.1 hs.2)]
  rw [show f' + 2 = (f' + 1) + 1 from rfl,
    mapGo_lit_step (f' + 1) 4 "    end: ".toList "end".toList
      (qToStr c.endVal) _ _ (YamlVal.num c.endVal) 'e' "nd".toList (by decide)
      (by decide) (by decide) (by decide) (qToStr_ne_nil c.endVal he.1)
      (resolveScalar_qToStr c.endVal he.1 he.2)]
  rw [mapGo_lit_step f' 4 "    processing_ms: ".toList
      "processing_ms".toList (natToDigits c.processing_ms) _ _
      (YamlVal.num ((c.processing_ms : ℚ))) 'p' "rocessing_ms".toList
      (by decide) (by decide) (by decide) (by decide)
      (natToDigits_ne_nil c.processing_ms)
      (resolveScalar_natToDigits c.processing_ms)]
  obtain ⟨extra, hopt⟩ := covPart_trace c f' rest
    (((((([] ++ [("file".toList, w1)]) ++ [("video".toList, w2)]) ++
      [("subtitle".toList, w3)]) ++ [("start".toList, YamlVal.num c.start)]) ++
      [("end".toList, YamlVal.num c.endVal)]) ++
      [("processing_ms".toList, YamlVal.num ((c.processing_ms : ℚ)))])
    (by omega) hrest
  rw [hopt]
  refine ⟨_, rfl, ?_, ?_, ?_⟩
  · show lookupYaml "start".toList (("file".toList, w1) ::
      ("video".toList, w2) :: ("subtitle".toList, w3) ::
      ("start".toList, YamlVal.num c.start) ::
      ("end".toList, YamlVal.num c.endVal) ::
      ("processing_ms".toList, YamlVal.num ((c.processing_ms : ℚ))) :: extra) =
      some (YamlVal.num c.start)
    rw [lookupYaml_cons_ne _ _ _ _ (by decide),
      lookupYaml_cons_ne _ _ _ _ (by decide),
      lookupYaml_cons_ne _ _ _ _ (by decide), lookupYaml_cons_eq]
  · show lookupYaml "end".toList (("file".toList, w1) ::
      ("video".toList, w2) :: ("subtitle".toList, w3) ::
      ("start".toList, YamlVal.num c.start) ::
      ("end".toList, YamlVal.num c.endVal) ::
      ("processing_ms".toList, YamlVal.num ((c.processing_ms : ℚ))) :: extra) =
      some (YamlVal.num c.endVal)
    rw [lookupYaml_cons_ne _ _ _ _ (by decide),
      lookupYaml_cons_ne _ _ _ _ (by decide),
      lookupYaml_cons_ne _ _ _ _ (by decide),
      lookupYaml_cons_ne _ _ _ _ (by decide), lookupYaml_cons_eq]
  · show lookupYaml "processing_ms".toList (("file".toList, w1) ::
      ("video".toList, w2) :: ("subtitle".toList, w3) ::
      ("start".toList, YamlVal.num c.start) ::
      ("end".toList, YamlVal.num c.endVal) ::
      ("processing_ms".toList, YamlVal.num ((c.processing_ms : ℚ))) :: extra) =
      some (YamlVal.num ((c.processing_ms : ℚ)))
    rw [lookupYaml_cons_ne _ _ _ _ (by decide),
      lookupYaml_cons_ne _ _ _ _ (by decide),
      lookupYaml_cons_ne _ _ _ _ (by decide),
      lookupYaml_cons_ne _ _ _ _ (by decide),
      lookupYaml_cons_ne _ _ _ _ (by decide), lookupYaml_cons_eq]


theorem clipLines_length_ge (c : ClipMetadataEntry) : 6 ≤ (clipLines c).length := by
  rw [clipLines_length]
  omega

theorem flatten_dedent (cs : List ClipMetadataEntry) (rest : List Str) (k : ℕ)
    (h2 : 2 < k)
    (hrest : rest = [] ∨ ∃ l rs, rest = l :: rs ∧ indentOf l < 2) :
    (cs.map clipLines).flatten ++ rest = [] ∨
      ∃ l rs, (cs.map clipLines).flatten ++ rest = l :: rs ∧ indentOf l < k := by
  cases cs with
  | nil =>
    rw [List.map_nil, List.flatten_nil, List.nil_append]
    rcases hrest with rfl | ⟨l, rs, h, hl⟩
    · exact Or.inl rfl
    · exact Or.inr ⟨l, rs, h, by omega⟩
  | cons c cs2 =>
    rw [List.map_cons, List.flatten_cons, List.append_assoc,
      clipLines_tail_shape]
    refine Or.inr ⟨_, _, rfl, ?_⟩
    rw [clip_first_line_indent]
    omega

theorem clips_seq_trace : ∀ (cs : List ClipMetadataEntry) (f : ℕ)
    (acc : List YamlVal) (rest : List Str),
    (∀ c ∈ cs, NumOk c.start ∧ NumOk c.endVal) →
    2 * ((cs.map clipLines).flatten).length + 2 * cs.length + 2 ≤ f →
    (rest = [] ∨ ∃ l rs, rest = l :: rs ∧ indentOf l < 2) →
    ∃ items, parseSeqGo f 2 ((cs.map clipLines).flatten ++ rest) acc =
        some (acc ++ items, rest) ∧
      clipNumsList items =
        some (cs.map (fun c => (c.start, c.endVal, (c.processing_ms : ℚ)))) := by
  intro cs
  induction cs with
  | nil =>
    intro f acc rest hnum hf hrest
    obtain ⟨f', rfl⟩ : ∃ f', f = f' + 1 := ⟨f - 1, by omega⟩
    refine ⟨[], ?_, rfl⟩
    rw [List.map_nil, List.flatten_nil, List.nil_append, List.append_nil]
    exact seqGo_stop_dedent f' 2 rest acc hrest
  | cons c cs ih =>
    intro f acc rest hnum hf hrest
    have hflat : ((List.map clipLines (c :: cs)).flatten).length =
        (clipLines c).length + ((cs.map clipLines).flatten).length := by
      rw [List.map_cons, List.flatten_cons, List.length_append]
    have hcl := clipLines_length_ge c
    rw [hflat, List.length_cons] at hf
    obtain ⟨f', rfl⟩ : ∃ f', f = f' + 2 := ⟨f - 2, by omega⟩
    rw [List.map_cons, List.flatten_cons, List.append_assoc,
      clipLines_tail_shape, clip_first_line_shape]
    rw [show f' + 2 = (f' + 1) + 1 from rfl,
      seqGo_dash_step (f' + 1) 2
        ("file".toList ++ ':' :: ' ' :: yamlString c.file) _ acc]
    have hq : (("file".toList ++ ':' :: ' ' :: yamlString c.file) : Str).head? ≠
        some '"' := by
      rw [show (("file".toList ++ ':' :: ' ' :: yamlString c.file) : Str).head?
        = some 'f' from rfl]
      decide
    obtain ⟨entries, hmap, hl1, hl2, hl3⟩ := clip_map_trace c
      (hnum c (List.mem_cons_self c cs)).1 (hnum c (List.mem_cons_self c cs)).2
      f' ((cs.map clipLines).flatten ++ rest) (by omega)
      (flatten_dedent cs rest 4 (by omega) hrest)
    rw [seqItem_compact f' 2 ("file".toList ++ ':' :: ' ' :: yamlString c.file)
      ("file".toList, yamlString c.file) _ acc entries
      ((cs.map clipLines).flatten ++ rest) hq
      (keyValSplit_sep "file".toList (yamlString c.file) (by decide)) hmap]
    obtain ⟨items, hseq, hnums⟩ := ih f' (acc ++ [YamlVal.map entries]) rest
      (fun x hx => hnum x (List.mem_cons_of_mem c hx)) (by omega) hrest
    refine ⟨YamlVal.map entries :: items, ?_, ?_⟩
    · rw [hseq, List.append_assoc]
      rfl
    · rw [clipNumsList.eq_def]
      simp only []
      rw [clipNums_map entries c.start c.endVal ((c.processing_ms : ℚ))
        hl1 hl2 hl3, hnums]
      simp only []
      rw [List.map_cons]


theorem metadataLines_shape (m : ClipRunMetadata) :
    metadataLines m =
      ("schema: ".toList ++ m.schema) ::
      ("query: ".toList ++ yamlString m.query) ::
      ("buffer_ms: ".toList ++ natToDigits m.buffer_ms) ::
      ("generated_at: ".toList ++ yamlString m.generated_at) ::
      ("ffmpeg_path: ".toList ++ yamlString m.ffmpeg_path) ::
      ("mode: ".toList ++ modeStr m.mode) ::
      ("container: ".toList ++ containerStr m.container) ::
      ((match m.hw_accel with
        | some h => ["hw_accel: ".toList ++ hwStr h]
        | none => []) ++
       (("run_directory: ".toList ++ yamlString m.run_directory) ::
        ("total_clips: ".toList ++ natToDigits m.total_clips) ::
        "clips:".toList ::
        (m.clips.map clipLines).flatten)) := by
  rw [metadataLines]
  simp only [List.cons_append, List.nil_append, List.append_assoc]

theorem clipLines_lines_ne_nil (c : ClipMetadataEntry) :
    ∀ l ∈ clipLines c, l ≠ [] := by
  intro l hl
  rw [clipLines] at hl
  rcases List.mem_append.mp hl with hl | hl
  · rcases List.mem_append.mp hl with hl | hl
    · rcases List.mem_append.mp hl with hl | hl
      · simp only [List.mem_cons, List.not_mem_nil, or_false] at hl
        rcases hl with hl | hl | hl | hl | hl | hl <;> subst hl <;>
          exact lit_append_ne_nil _ _ (by decide)
      · rcases hco : c.cover_image with _ | ci <;> rw [hco] at hl <;>
          simp only [] at hl
        · cases hl
        · by_cases hv : ci = []
          · rw [if_pos hv] at hl; cases hl
          · rw [if_neg hv] at hl
            simp only [List.mem_singleton] at hl
            subst hl
            exact lit_append_ne_nil _ _ (by decide)
    · rcases hsu : c.summary with _ | su <;> rw [hsu] at hl <;>
        simp only [] at hl
      · cases hl
      · by_cases hv : su = []
        · rw [if_pos hv] at hl; cases hl
        · rw [if_neg hv] at hl
          simp only [List.mem_singleton] at hl
          subst hl
          exact lit_append_ne_nil _ _ (by decide)
  · rcases hctx : c.summary_context with _ | ctx <;> rw [hctx] at hl <;>
      simp only [] at hl
    · cases hl
    · by_cases hv : ctx = []
      · rw [if_pos hv] at hl; cases hl
      · rw [if_neg hv] at hl
        rcases List.mem_cons.mp hl with hl | hl
        · subst hl; decide
        · obtain ⟨x, _, hx⟩ := List.mem_map.mp hl
          subst hx
          exact lit_append_ne_nil _ _ (by decide)

theorem metadataLines_lines_ne_nil (m : ClipRunMetadata) :
    ∀ l ∈ metadataLines m, l ≠ [] := by
  intro l hl
  rw [metadataLines] at hl
  rcases List.mem_append.mp hl with hl | hl
  · rcases List.mem_append.mp hl with hl | hl
    · rcases List.mem_append.mp hl with hl | hl
      · simp only [List.mem_cons, List.not_mem_nil, or_false] at hl
        rcases hl with hl | hl | hl | hl | hl | hl | hl <;> subst hl <;>
          exact lit_append_ne_nil _ _ (by decide)
      · rcases hhw : m.hw_accel with _ | hw <;> rw [hhw] at hl <;>
          simp only [] at hl
        · cases hl
        · simp only [List.mem_singleton] at hl
          subst hl
          exact lit_append_ne_nil _ _ (by decide)
    · simp only [List.mem_cons, List.not_mem_nil, or_false] at hl
      rcases hl with hl | hl | hl
      · subst hl; exact lit_append_ne_nil _ _ (by decide)
      · subst hl; exact lit_append_ne_nil _ _ (by decide)
      · subst hl; decide
  · obtain ⟨ls, hls, hlmem⟩ := List.mem_flatten.mp hl
    obtain ⟨c, _, hc⟩ := List.mem_map.mp hls
    subst hc
    exact clipLines_lines_ne_nil c l hlmem

theorem filter_lines_serialize (m : ClipRunMetadata)
    (hs : m.schema = "clip_run.v1".toList) :
    (splitLines (serializeMetadata m)).filter (fun l => l ≠ []) =
      metadataLines m := by
  have hne : metadataLines m ≠ [] := by
    rw [metadataLines_shape]
    exact List.cons_ne_nil _ _
  have hsplit : splitLines (serializeMetadata m) = metadataLines m ++ [[]] :=
    splitLines_joinLines (metadataLines m) (noNl_metadataLines m hs) hne
  rw [hsplit, List.filter_append]
  rw [List.filter_eq_self.mpr
    (fun l hl => decide_eq_true (metadataLines_lines_ne_nil m l hl))]
  rw [show (([([] : Str)]).filter (fun l => l ≠ [])) = [] from rfl,
    List.append_nil]


theorem top_map_trace (m : ClipRunMetadata)
    (hs : m.schema = "clip_run.v1".toList)
    (hnum : ∀ c ∈ m.clips, NumOk c.start ∧ NumOk c.endVal)
    (hne : m.clips ≠ []) (f : ℕ)
    (hf : 2 * ((m.clips.map clipLines).flatten).length +
      2 * m.clips.length + 16 ≤ f) :
    ∃ es, parseMapGo f 0 (metadataLines m) [] = some (es, []) ∧
      lookupYaml "total_clips".toList es =
        some (YamlVal.num ((m.total_clips : ℚ))) ∧
      ∃ items, lookupYaml "clips".toList es = some (YamlVal.seq items) ∧
        clipNumsList items =
          some (m.clips.map (fun c => (c.start, c.endVal,
            (c.processing_ms : ℚ)))) := by
  obtain ⟨c0, cs0, hcl⟩ : ∃ a b, m.clips = a :: b := by
    cases hc : m.clips with
    | nil => exact absurd hc hne
    | cons a b => exact ⟨a, b, rfl⟩
  rw [hcl] at hnum hf
  rw [metadataLines_shape m, hs, hcl]
  rcases hhw : m.hw_accel with _ | hv
  · simp only []
    rw [List.nil_append]
    obtain ⟨items, hseq, hnums⟩ := clips_seq_trace (c0 :: cs0) (f - 10) [] []
      hnum (by omega) (Or.inl rfl)
    rw [List.append_nil] at hseq
    obtain ⟨f0, rfl⟩ : ∃ f0, f = f0 + 11 := ⟨f - 11, by omega⟩
    obtain ⟨wq, hwq⟩ := resolveScalar_yamlString m.query
    obtain ⟨wg, hwg⟩ := resolveScalar_yamlString m.generated_at
    obtain ⟨wf, hwf⟩ := resolveScalar_yamlString m.ffmpeg_path
    obtain ⟨wr, hwr⟩ := resolveScalar_yamlString m.run_directory
    rw [show f0 + 11 = (f0 + 10) + 1 from rfl,
      mapGo_lit_step (f0 + 10) 0 "schema: ".toList "schema".toList
        ("clip_run.v1".toList) _ _ (YamlVal.str "clip_run.v1".toList) 's' "chema".toList (by decide) (by decide)
        (by decide) (by decide) (by decide) resolveScalar_schema]
    rw [show f0 + 10 = (f0 + 9) + 1 from rfl,
      mapGo_lit_step (f0 + 9) 0 "query: ".toList "query".toList
        (yamlString m.query) _ _ (wq) 'q' "uery".toList (by decide) (by decide)
        (by decide) (by decide) (yamlString_ne_nil m.query) hwq]
    rw [show f0 + 9 = (f0 + 8) + 1 from rfl,
      mapGo_lit_step (f0 + 8) 0 "buffer_ms: ".toList "buffer_ms".toList
        (natToDigits m.buffer_ms) _ _ (YamlVal.num ((m.buffer_ms : ℚ))) 'b' "uffer_ms".toList (by decide) (by decide)
        (by decide) (by decide) (natToDigits_ne_nil m.buffer_ms) (resolveScalar_natToDigits m.buffer_ms)]
    rw [show f0 + 8 = (f0 + 7) + 1 from rfl,
      mapGo_lit_step (f0 + 7) 0 "generated_at: ".toList "generated_at".toList
        (yamlString m.generated_at) _ _ (wg) 'g' "enerated_at".toList (by decide) (by decide)
        (by decide) (by decide) (yamlString_ne_nil m.generated_at) hwg]
    rw [show f0 + 7 = (f0 + 6) + 1 from rfl,
      mapGo_lit_step (f0 + 6) 0 "ffmpeg_path: ".toList "ffmpeg_path".toList
        (yamlString m.ffmpeg_path) _ _ (wf) 'f' "fmpeg_path".toList (by decide) (by decide)
        (by decide) (by decide) (yamlString_ne_nil m.ffmpeg_path) hwf]
    rw [show f0 + 6 = (f0 + 5) + 1 from rfl,
      mapGo_lit_step (f0 + 5) 0 "mode: ".toList "mode".toList
        (modeStr m.mode) _ _ (YamlVal.str (modeStr m.mode)) 'm' "ode".toList (by decide) (by decide)
        (by decide) (by decide) (modeStr_ne_nil m.mode) (resolveScalar_modeStr m.mode)]
    rw [show f0 + 5 = (f0 + 4) + 1 from rfl,
      mapGo_lit_step (f0 + 4) 0 "container: ".toList "container".toList
        (containerStr m.container) _ _ (YamlVal.str (containerStr m.container)) 'c' "ontainer".toList (by decide) (by decide)
        (by decide) (by decide) (containerStr_ne_nil m.container) (resolveScalar_containerStr m.container)]
    rw [show f0 + 4 = (f0 + 3) + 1 from rfl,
      mapGo_lit_step (f0 + 3) 0 "run_directory: ".toList "run_directory".toList
        (yamlString m.run_directory) _ _ (wr) 'r' "un_directory".toList (by decide) (by decide)
        (by decide) (by decide) (yamlString_ne_nil m.run_directory) hwr]
    rw [show f0 + 3 = (f0 + 2) + 1 from rfl,
      mapGo_lit_step (f0 + 2) 0 "total_clips: ".toList "total_clips".toList
        (natToDigits m.total_clips) _ _ (YamlVal.num ((m.total_clips : ℚ))) 't' "otal_clips".toList (by decide) (by decide)
        (by decide) (by decide) (natToDigits_ne_nil m.total_clips) (resolveScalar_natToDigits m.total_clips)]
    rw [List.map_cons, List.flatten_cons, clipLines_tail_shape] at hseq
    rw [List.map_cons, List.flatten_cons, clipLines_tail_shape]
    rw [show f0 + 2 = (f0 + 1) + 1 from rfl,
      mapGo_nested_seq_step (f0 + 1) 0 "clips:".toList "clips".toList
        ("  - file: ".toList ++ yamlString c0.file) _ _ ([] ++ items) []
        (by decide) (by decide) (by decide)
        (by rw [clip_first_line_indent]; omega)
        (by rw [clip_first_line_indent]; exact clip_first_line_dash _)
        (by rw [clip_first_line_indent]; exact hseq)]
    rw [mapGo_nil f0 0 _]
    refine ⟨_, rfl, ?_, ?_⟩
    · show lookupYaml "total_clips".toList (("schema".toList, YamlVal.str "clip_run.v1".toList) ::
      ("query".toList, wq) ::
      ("buffer_ms".toList, YamlVal.num ((m.buffer_ms : ℚ))) ::
      ("generated_at".toList, wg) ::
      ("ffmpeg_path".toList, wf) ::
      ("mode".toList, YamlVal.str (modeStr m.mode)) ::
      ("container".toList, YamlVal.str (containerStr m.container)) ::
      ("run_directory".toList, wr) ::
      ("total_clips".toList, YamlVal.num ((m.total_clips : ℚ))) ::
      ("clips".toList, YamlVal.seq ([] ++ items)) :: []) =
        some (YamlVal.num ((m.total_clips : ℚ)))
      rw [lookupYaml_cons_ne _ _ _ _ (by decide),
        lookupYaml_cons_ne _ _ _ _ (by decide),
        lookupYaml_cons_ne _ _ _ _ (by decide),
        lookupYaml_cons_ne _ _ _ _ (by decide),
        lookupYaml_cons_ne _ _ _ _ (by decide),
        lookupYaml_cons_ne _ _ _ _ (by decide),
        lookupYaml_cons_ne _ _ _ _ (by decide),
        lookupYaml_cons_ne _ _ _ _ (by decide), lookupYaml_cons_eq]
    · refine ⟨[] ++ items, ?_, ?_⟩
      · show lookupYaml "clips".toList (("schema".toList, YamlVal.str "clip_run.v1".toList) ::
      ("query".toList, wq) ::
      ("buffer_ms".toList, YamlVal.num ((m.buffer_ms : ℚ))) ::
      ("generated_at".toList, wg) ::
      ("ffmpeg_path".toList, wf) ::
      ("mode".toList, YamlVal.str (modeStr m.mode)) ::
      ("container".toList, YamlVal.str (containerStr m.container)) ::
      ("run_directory".toList, wr) ::
      ("total_clips".toList, YamlVal.num ((m.total_clips : ℚ))) ::
      ("clips".toList, YamlVal.seq ([] ++ items)) :: []) =
          some (YamlVal.seq ([] ++ items))
        rw [lookupYaml_cons_ne _ _ _ _ (by decide),
          lookupYaml_cons_ne _ _ _ _ (by decide),
          lookupYaml_cons_ne _ _ _ _ (by decide),
          lookupYaml_cons_ne _ _ _ _ (by decide),
          lookupYaml_cons_ne _ _ _ _ (by decide),
          lookupYaml_cons_ne _ _ _ _ (by decide),
          lookupYaml_cons_ne _ _ _ _ (by decide),
          lookupYaml_cons_ne _ _ _ _ (by decide),
          lookupYaml_cons_ne _ _ _ _ (by decide), lookupYaml_cons_eq]
      · exact hnums
  · simp only []
    rw [List.singleton_append]
    obtain ⟨items, hseq, hnums⟩ := clips_seq_trace (c0 :: cs0) (f - 11) [] []
      hnum (by omega) (Or.inl rfl)
    rw [List.append_nil] at hseq
    obtain ⟨f0, rfl⟩ : ∃ f0, f = f0 + 12 := ⟨f - 12, by omega⟩
    obtain ⟨wq, hwq⟩ := resolveScalar_yamlString m.query
    obtain ⟨wg, hwg⟩ := resolveScalar_yamlString m.generated_at
    obtain ⟨wf, hwf⟩ := resolveScalar_yamlString m.ffmpeg_path
    obtain ⟨wr, hwr⟩ := resolveScalar_yamlString m.run_directory
    rw [show f0 + 12 = (f0 + 11) + 1 from rfl,
      mapGo_lit_step (f0 + 11) 0 "schema: ".toList "schema".toList
        ("clip_run.v1".toList) _ _ (YamlVal.str "clip_run.v1".toList) 's' "chema".toList (by decide) (by decide)
        (by decide) (by decide) (by decide) resolveScalar_schema]
    rw [show f0 + 11 = (f0 + 10) + 1 from rfl,
      mapGo_lit_step (f0 + 10) 0 "query: ".toList "query".toList
        (yamlString m.query) _ _ (wq) 'q' "uery".toList (by decide) (by decide)
        (by decide) (by decide) (yamlString_ne_nil m.query) hwq]
    rw [show f0 + 10 = (f0 + 9) + 1 from rfl,
      mapGo_lit_step (f0 + 9) 0 "buffer_ms: ".toList "buffer_ms".toList
        (natToDigits m.buffer_ms) _ _ (YamlVal.num ((m.buffer_ms : ℚ))) 'b' "uffer_ms".toList (by decide) (by decide)
        (by decide) (by decide) (natToDigits_ne_nil m.buffer_ms) (resolveScalar_natToDigits m.buffer_ms)]
    rw [show f0 + 9 = (f0 + 8) + 1 from rfl,
      mapGo_lit_step (f0 + 8) 0 "generated_at: ".toList "generated_at".toList
        (yamlString m.generated_at) _ _ (wg) 'g' "enerated_at".toList (by decide) (by decide)
        (by decide) (by decide) (yamlString_ne_nil m.generated_at) hwg]
    rw [show f0 + 8 = (f0 + 7) + 1 from rfl,
      mapGo_lit_step (f0 + 7) 0 "ffmpeg_path: ".toList "ffmpeg_path".toList
        (yamlString m.ffmpeg_path) _ _ (wf) 'f' "fmpeg_path".toList (by decide) (by decide)
        (by decide) (by decide) (yamlString_ne_nil m.ffmpeg_path) hwf]
    rw [show f0 + 7 = (f0 + 6) + 1 from rfl,
      mapGo_lit_step (f0 + 6) 0 "mode: ".toList "mode".toList
        (modeStr m.mode) _ _ (YamlVal.str (modeStr m.mode)) 'm' "ode".toList (by decide) (by decide)
        (by decide) (by decide) (modeStr_ne_nil m.mode) (resolveScalar_modeStr m.mode)]
    rw [show f0 + 6 = (f0 + 5) + 1 from rfl,
      mapGo_lit_step (f0 + 5) 0 "container: ".toList "container".toList
        (containerStr m.container) _ _ (YamlVal.str (containerStr m.container)) 'c' "ontainer".toList (by decide) (by decide)
        (by decide) (by decide) (containerStr_ne_nil m.container) (resolveScalar_containerStr m.container)]
    rw [show f0 + 5 = (f0 + 4) + 1 from rfl,
      mapGo_lit_step (f0 + 4) 0 "hw_accel: ".toList "hw_accel".toList
        (hwStr hv) _ _ (YamlVal.str (hwStr hv)) 'h' "w_accel".toList (by decide) (by decide)
        (by decide) (by decide) (hwStr_ne_nil hv) (resolveScalar_hwStr hv)]
    rw [show f0 + 4 = (f0 + 3) + 1 from rfl,
      mapGo_lit_step (f0 + 3) 0 "run_directory: ".toList "run_directory".toList
        (yamlString m.run_directory) _ _ (wr) 'r' "un_directory".toList (by decide) (by decide)
        (by decide) (by decide) (yamlString_ne_nil m.run_directory) hwr]
    rw [show f0 + 3 = (f0 + 2) + 1 from rfl,
      mapGo_lit_step (f0 + 2) 0 "total_clips: ".toList "total_clips".toList
        (natToDigits m.total_clips) _ _ (YamlVal.num ((m.total_clips : ℚ))) 't' "otal_clips".toList (by decide) (by decide)
        (by decide) (by decide) (natToDigits_ne_nil m.total_clips) (resolveScalar_natToDigits m.total_clips)]
    rw [List.map_cons, List.flatten_cons, clipLines_tail_shape] at hseq
    rw [List.map_cons, List.flatten_cons, clipLines_tail_shape]
    rw [show f0 + 2 = (f0 + 1) + 1 from rfl,
      mapGo_nested_seq_step (f0 + 1) 0 "clips:".toList "clips".toList
        ("  - file: ".toList ++ yamlString c0.file) _ _ ([] ++ items) []
        (by decide) (by decide) (by decide)
        (by rw [clip_first_line_indent]; omega)
        (by rw [clip_first_line_indent]; exact clip_first_line_dash _)
        (by rw [clip_first_line_indent]; exact hseq)]
    rw [mapGo_nil f0 0 _]
    refine ⟨_, rfl, ?_, ?_⟩
    · show lookupYaml "total_clips".toList (("schema".toList, YamlVal.str "clip_run.v1".toList) ::
      ("query".toList, wq) ::
      ("buffer_ms".toList, YamlVal.num ((m.buffer_ms : ℚ))) ::
      ("generated_at".toList, wg) ::
      ("ffmpeg_path".toList, wf) ::
      ("mode".toList, YamlVal.str (modeStr m.mode)) ::
      ("container".toList, YamlVal.str (containerStr m.container)) ::
      ("hw_accel".toList, YamlVal.str (hwStr hv)) ::
      ("run_directory".toList, wr) ::
      ("total_clips".toList, YamlVal.num ((m.total_clips : ℚ))) ::
      ("clips".toList, YamlVal.seq ([] ++ items)) :: []) =
        some (YamlVal.num ((m.total_clips : ℚ)))
      rw [lookupYaml_cons_ne _ _ _ _ (by decide),
        lookupYaml_cons_ne _ _ _ _ (by decide),
        lookupYaml_cons_ne _ _ _ _ (by decide),
        lookupYaml_cons_ne _ _ _ _ (by decide),
        lookupYaml_cons_ne _ _ _ _ (by decide),
        lookupYaml_cons_ne _ _ _ _ (by decide),
        lookupYaml_cons_ne _ _ _ _ (by decide),
        lookupYaml_cons_ne _ _ _ _ (by decide),
        lookupYaml_cons_ne _ _ _ _ (by decide), lookupYaml_cons_eq]
    · refine ⟨[] ++ items, ?_, ?_⟩
      · show lookupYaml "clips".toList (("schema".toList, YamlVal.str "clip_run.v1".toList) ::
      ("query".toList, wq) ::
      ("buffer_ms".toList, YamlVal.num ((m.buffer_ms : ℚ))) ::
      ("generated_at".toList, wg) ::
      ("ffmpeg_path".toList, wf) ::
      ("mode".toList, YamlVal.str (modeStr m.mode)) ::
      ("container".toList, YamlVal.str (containerStr m.container)) ::
      ("hw_accel".toList, YamlVal.str (hwStr hv)) ::
      ("run_directory".toList, wr) ::
      ("total_clips".toList, YamlVal.num ((m.total_clips : ℚ))) ::
      ("clips".toList, YamlVal.seq ([] ++ items)) :: []) =
          some (YamlVal.seq ([] ++ items))
        rw [lookupYaml_cons_ne _ _ _ _ (by decide),
          lookupYaml_cons_ne _ _ _ _ (by decide),
          lookupYaml_cons_ne _ _ _ _ (by decide),
          lookupYaml_cons_ne _ _ _ _ (by decide),
          lookupYaml_cons_ne _ _ _ _ (by decide),
          lookupYaml_cons_ne _ _ _ _ (by decide),
          lookupYaml_cons_ne _ _ _ _ (by decide),
          lookupYaml_cons_ne _ _ _ _ (by decide),
          lookupYaml_cons_ne _ _ _ _ (by decide),
          lookupYaml_cons_ne _ _ _ _ (by decide), lookupYaml_cons_eq]
      · exact hnums


theorem flatten_length_ge (cs : List ClipMetadataEntry) :
    cs.length ≤ ((cs.map clipLines).flatten).length := by
  induction cs with
  | nil => simp
  | cons c cs ih =>
    rw [List.map_cons, List.flatten_cons, List.length_append, List.length_cons]
    have := clipLines_length_ge c
    omega

theorem metadataLines_length_ge (m : ClipRunMetadata) :
    10 + ((m.clips.map clipLines).flatten).length ≤
      (metadataLines m).length := by
  rw [metadataLines_shape]
  rcases m.hw_accel with _ | hv <;> simp [List.length_append] <;> omega

theorem yamlParse_serialize (m : ClipRunMetadata)
    (hs : m.schema = "clip_run.v1".toList)
    (hnum : ∀ c ∈ m.clips, NumOk c.start ∧ NumOk c.endVal)
    (hne : m.clips ≠ []) :
    ∃ es, yamlParse (serializeMetadata m) = some (YamlVal.map es) ∧
      lookupYaml "total_clips".toList es =
        some (YamlVal.num ((m.total_clips : ℚ))) ∧
      ∃ items, lookupYaml "clips".toList es = some (YamlVal.seq items) ∧
        clipNumsList items = some (m.clips.map (fun c =>
          (c.start, c.endVal, (c.processing_ms : ℚ)))) := by
  have hfil := filter_lines_serialize m hs
  obtain ⟨es, hpm, hlt, items, hlc, hnums⟩ := top_map_trace m hs hnum hne
    (4 * (metadataLines m).length + 4)
    (by
      have h1 := metadataLines_length_ge m
      have h2 := flatten_length_ge m.clips
      omega)
  refine ⟨es, ?_, hlt, items, hlc, hnums⟩
  simp only [yamlParse]
  rw [hfil, hpm]

theorem readRunNums_serialize (m : ClipRunMetadata)
    (hs : m.schema = "clip_run.v1".toList)
    (hnum : ∀ c ∈ m.clips, NumOk c.start ∧ NumOk c.endVal)
    (hne : m.clips ≠ []) :
    readRunNums (serializeMetadata m) =
      some (((m.total_clips : ℚ)),
        m.clips.map (fun c => (c.start, c.endVal, (c.processing_ms : ℚ)))) := by
  obtain ⟨es, hy, hlt, items, hlc, hnums⟩ := yamlParse_serialize m hs hnum hne
  rw [readRunNums.eq_def, hy]
  simp only []
  rw [hlc]
  simp only []
  rw [hlt, hnums]


/-- C8 counterexample: a recorder-built manifest of a run with no clips
(here: a fresh run over the initial state) has `total_clips = 0`, but
serializing it emits a `clips:` key with an empty value, which the yaml
re-parse resolves to `null`; the readers' `parsed?.clips` guard then
rejects the file, so re-parsing recovers no `total_clips`/`clips` values
at all — in particular not a clip list of length `total_clips`. -/
theorem manifest_roundtrip_claim_cex :
    (buildMetadata "q".toList 500 "g".toList "f".toList
      (ExtractorConfig.mk 1 false ClipMode.fastCopy ContainerFormat.mkv none
        false false) "runs/run_1".toList initialState).total_clips = 0 ∧
    readRunNums (serializeMetadata (buildMetadata "q".toList 500 "g".toList
      "f".toList (ExtractorConfig.mk 1 false ClipMode.fastCopy
        ContainerFormat.mkv none false false) "runs/run_1".toList
      initialState)) = none := by
  constructor
  · rfl
  · set_option maxRecDepth 4000 in decide

/-- C8 (amended): every manifest `buildMetadata` assembles has
`total_clips` equal to the length of its `clips` list; and for every
manifest with the written schema line, at least one clip, and the
recorder's exact millisecond-multiple numbers, serializing it and
re-parsing the text through the repository's readers (yaml block parse,
`parsed?.clips` guard, numeric field access) recovers `total_clips` and
every clip's `start`, `end` and `processing_ms` exactly — so the
re-parsed `total_clips` equals the re-parsed clip count. -/
theorem manifest_total_and_roundtrip :
    (∀ query buffer_ms generated_at ffmpeg_path cfg run_directory st,
      (buildMetadata query buffer_ms generated_at ffmpeg_path cfg run_directory
        st).total_clips =
      (buildMetadata query buffer_ms generated_at ffmpeg_path cfg run_directory
        st).clips.length) ∧
    (∀ m : ClipRunMetadata, m.schema = "clip_run.v1".toList → m.clips ≠ [] →
      (∀ c ∈ m.clips, NumOk c.start ∧ NumOk c.endVal) →
      readRunNums (serializeMetadata m) =
        some (((m.total_clips : ℚ)),
          m.clips.map (fun c => (c.start, c.endVal, (c.processing_ms : ℚ))))) ∧
    (∀ m : ClipRunMetadata, m.schema = "clip_run.v1".toList → m.clips ≠ [] →
      (∀ c ∈ m.clips, NumOk c.start ∧ NumOk c.endVal) →
      m.total_clips = m.clips.length →
      ∀ r, readRunNums (serializeMetadata m) = some r →
        r.1 = (r.2.length : ℚ)) := by
  refine ⟨fun _ _ _ _ _ _ _ => rfl,
    fun m hs hne hnum => readRunNums_serialize m hs hnum hne, ?_⟩
  intro m hs hne hnum htot r heq
  rw [readRunNums_serialize m hs hnum hne] at heq
  have h := Option.some.inj heq
  subst h
  show ((m.total_clips : ℚ)) = _
  rw [List.length_map, htot]

/-- C8 witness: a concrete one-clip manifest round-trips to its exact
numbers. -/
theorem manifest_total_and_roundtrip_witness :
    readRunNums (serializeMetadata (ClipRunMetadata.mk "clip_run.v1".toList
      "hello".toList 500 "2024".toList "ffmpeg".toList ClipMode.fastCopy
      ContainerFormat.mkv none 1 "runs/run_1".toList
      [ClipMetadataEntry.mk "vids/a_1.mkv".toList "a.mkv".toList
        "a.srt".toList 10 12 5 none none none])) =
      some ((((1 : ℕ) : ℚ)), [((10 : ℚ), (12 : ℚ), ((5 : ℕ) : ℚ))]) := by
  have hn : ∀ c ∈ [ClipMetadataEntry.mk "vids/a_1.mkv".toList "a.mkv".toList
      "a.srt".toList 10 12 5 none none none],
      NumOk c.start ∧ NumOk c.endVal := by
    intro c hc
    simp only [List.mem_singleton] at hc
    subst hc
    refine ⟨⟨?_, ?_⟩, ?_, ?_⟩
    · show (0 : ℚ) ≤ 10
      norm_num
    · show ((10 : ℚ) * 1000).den = 1
      rw [show (10 : ℚ) * 1000 = 10000 from by norm_num]
      exact Rat.den_ofNat 10000
    · show (0 : ℚ) ≤ 12
      norm_num
    · show ((12 : ℚ) * 1000).den = 1
      rw [show (12 : ℚ) * 1000 = 12000 from by norm_num]
      exact Rat.den_ofNat 12000
  rw [manifest_total_and_roundtrip.2.1 (ClipRunMetadata.mk "clip_run.v1".toList
    "hello".toList 500 "2024".toList "ffmpeg".toList ClipMode.fastCopy
    ContainerFormat.mkv none 1 "runs/run_1".toList
    [ClipMetadataEntry.mk "vids/a_1.mkv".toList "a.mkv".toList
      "a.srt".toList 10 12 5 none none none]) rfl
    (List.cons_ne_nil _ _) hn]
  rfl

end Clipper
